import Mathlib

/-!
Verification of the CPMpy global-constraint library and its transformation
passes (`expressions/globalconstraints.py`, `transformations/linearize.py`,
`transformations/decompose_global.py`).

Concrete assignments map decision variables to integers, so evaluated
argument lists are embedded as `List Int`.  Boolean results of the Python
`value()` methods are embedded as `Bool`.
-/

namespace CPMpy

/-! ## AllDifferent (globalconstraints.py, class AllDifferent) -/

/-- `AllDifferent.value`: `len(set(argvals(self.args))) == len(self.args)`. -/
def allDifferentValue (vals : List Int) : Bool :=
  vals.dedup.length == vals.length

/-- Truth of `AllDifferent.decompose()` under a concrete assignment:
the conjunction of `var1 != var2` over all unordered pairs
(`all_pairs(self.args)` enumerates each pair once, first element earlier). -/
def allPairsNeTruth : List Int → Bool
  | [] => true
  | x :: xs => (xs.all fun y => decide (x ≠ y)) && allPairsNeTruth xs

theorem allPairsNeTruth_iff_nodup (l : List Int) :
    allPairsNeTruth l = true ↔ l.Nodup := by
  induction l with
  | nil => simp [allPairsNeTruth]
  | cons x xs ih =>
    simp [allPairsNeTruth, List.nodup_cons, ih, List.all_eq_true]
    intro _
    constructor
    · intro h hmem
      exact (h x hmem) rfl
    · intro h y hmem hxy
      exact h (hxy ▸ hmem)

theorem allDifferentValue_iff_nodup (l : List Int) :
    allDifferentValue l = true ↔ l.Nodup := by
  unfold allDifferentValue
  constructor
  · intro h
    have hlen : l.dedup.length = l.length := by simpa using h
    have hsub : l.dedup.Sublist l := List.dedup_sublist l
    have : l.dedup = l := hsub.eq_of_length hlen
    rw [← this]
    exact l.nodup_dedup
  · intro h
    rw [List.dedup_eq_self.mpr h]
    simp

/-- `AllDifferent.value` agrees with the truth of `AllDifferent.decompose`
(no auxiliary variables, no defining constraints). -/
theorem allDifferent_value_eq_decompose (l : List Int) :
    allDifferentValue l = allPairsNeTruth l := by
  rcases h : allPairsNeTruth l with _ | _
  · rcases hv : allDifferentValue l with _ | _
    · rfl
    · exact absurd ((allPairsNeTruth_iff_nodup l).mpr
        ((allDifferentValue_iff_nodup l).mp hv)) (by simp [h])
  · exact (allDifferentValue_iff_nodup l).mpr ((allPairsNeTruth_iff_nodup l).mp h)

/-! ## Inverse (globalconstraints.py, class Inverse) -/

/-- Python list indexing `l[x]` as used on the plain list `rev = argvals(...)`
inside `Inverse.value`: a negative index in `[-len, -1]` wraps around to
`l[len + x]`; an index outside `[-len, len)` raises `IndexError`, modelled
as `none`. -/
def pyGet (l : List Int) (x : Int) : Option Int :=
  if 0 ≤ x ∧ x < l.length then some (l.getD x.toNat 0)
  else if -(l.length : Int) ≤ x ∧ x < 0 then some (l.getD (x + l.length).toNat 0)
  else none

/-- The generator `all(rev[x] == i for i, x in enumerate(fwd))` wrapped in
`try ... except IndexError: return False`: the conjunction short-circuits on
the first failing equality, and an out-of-range lookup yields `False` for
the whole check. `i` is the running `enumerate` index. -/
def inverseCheck (rev : List Int) : Nat → List Int → Bool
  | _, [] => true
  | i, x :: xs =>
    match pyGet rev x with
    | none => false
    | some v => if v = (i : Int) then inverseCheck rev (i + 1) xs else false

/-- `Inverse.value` on concrete argument values `fwd`, `rev`. -/
def inverseValue (fwd rev : List Int) : Bool :=
  inverseCheck rev 0 fwd

/-- Modelled from the spec: the element lookup `rev[x]` that
`Inverse.decompose` relies on (its `Element` expression lives in
`globalfunctions.py`, which is not among the sources) is partial — an index
outside the valid range `[0, len(rev)-1]` makes the containing equality
constraint definitely unsatisfied ("`value` signals failure ... matching the
partiality of the element lookup it relies on"; a partial/out-of-bounds
dependency evaluates to a definite false/unsatisfied). -/
def elementEqTruth (rev : List Int) (x i : Int) : Bool :=
  if 0 ≤ x ∧ x < rev.length then decide (rev.getD x.toNat 0 = i) else false

/-- Truth under a concrete assignment of the conjunction returned by
`Inverse.decompose`: `all(rev[x] == i for i, x in enumerate(fwd))` with
`rev[x]` the partial element lookup. -/
def inverseDecompTruth (fwd rev : List Int) : Bool :=
  (List.range fwd.length).all fun i => elementEqTruth rev (fwd.getD i 0) i

/-- C6: the claim says `Inverse.value()` returns False whenever some
assigned `fwd` value is outside `[0, len(rev)-1]`.  The code instead applies
Python list indexing, which wraps negative indices: at `fwd = [-1, 0]`,
`rev = [1, 0]` the value `-1` is out of range yet `rev[-1]` silently reads
`rev[1] = 0`, and `value()` returns True. -/
theorem inverse_value_wraps_negative_index :
    inverseValue [-1, 0] [1, 0] = true ∧ ¬ (0 ≤ (-1 : Int)) := by decide

/-- C1: `value()` and `decompose()` disagree for `Inverse` at
`fwd = [1, -2]`, `rev = [1, 0]`: the walk over `rev` with Python negative
indexing accepts the assignment (`value()` is True), while the decomposition's
element constraint on the out-of-range index `-2` is unsatisfied (the
conjunction of the constraining constraints is False; `Inverse.decompose`
introduces no auxiliary variables, so there is no choice of auxiliary values
to extend with). -/
theorem inverse_value_decompose_disagree :
    inverseValue [1, -2] [1, 0] = true ∧
    inverseDecompTruth [1, -2] [1, 0] = false := by decide

/-! ## Circuit (globalconstraints.py, class Circuit) -/

/-- One step of the successor walk: `idx = arr[idx]` (only taken by the code
when `0 <= idx < len(arr)`, so the default value is never read there). -/
def succStep (arr : List Int) (x : Int) : Int :=
  arr.getD x.toNat 0

/-- The `while` loop of `Circuit.value`: state is the `visited` set (kept as
the list of visited indices, most recent first), the current `idx` and
`pathlen`.  The loop runs while `idx not in visited`; inside, an
out-of-range `idx` breaks, otherwise `idx` is visited and replaced by
`arr[idx]`.  It terminates within `len(arr) + 1` rounds because each round
adds a distinct in-range index to `visited`. -/
def circuitLoop (arr : List Int) : Nat → List Int → Int → Nat → (Nat × Int)
  | 0, _, idx, pathlen => (pathlen, idx)
  | fuel + 1, visited, idx, pathlen =>
    if idx ∈ visited then (pathlen, idx)
    else if 0 ≤ idx ∧ idx < arr.length then
      circuitLoop arr fuel (idx :: visited) (succStep arr idx) (pathlen + 1)
    else (pathlen, idx)

/-- `Circuit.value`: run the walk from index 0 and test
`pathlen == len(self.args) and idx == 0`. -/
def circuitValue (arr : List Int) : Bool :=
  let r := circuitLoop arr (arr.length + 1) [] 0 0
  decide (r.1 = arr.length) && decide (r.2 = 0)

/-- The iterates of the successor chain starting at index 0. -/
def circuitIterate (arr : List Int) : Nat → Int
  | 0 => 0
  | k + 1 => succStep arr (circuitIterate arr k)

/-- The list of visited indices after `t` rounds of the walk. -/
def visitedList (arr : List Int) : Nat → List Int
  | 0 => []
  | t + 1 => circuitIterate arr t :: visitedList arr t

theorem mem_visitedList (arr : List Int) (t : Nat) (x : Int) :
    x ∈ visitedList arr t ↔ ∃ j < t, circuitIterate arr j = x := by
  induction t with
  | zero => simp [visitedList]
  | succ t ih =>
    simp only [visitedList, List.mem_cons, ih]
    constructor
    · rintro (h | ⟨j, hj, hx⟩)
      · exact ⟨t, Nat.lt_succ_self t, h.symm⟩
      · exact ⟨j, Nat.lt_succ_of_lt hj, hx⟩
    · rintro ⟨j, hj, hx⟩
      rcases Nat.lt_succ_iff_lt_or_eq.mp hj with h | h
      · exact Or.inr ⟨j, h, hx⟩
      · exact Or.inl (h ▸ hx).symm

theorem pigeonhole_iterate (n : Nat) (it : Nat → Int)
    (hrange : ∀ k < n, 0 ≤ it k ∧ it k < n)
    (hdist : ∀ j k, j < k → k < n → it j ≠ it k)
    (hn : 0 ≤ it n ∧ it n < n) : ∃ j < n, it j = it n := by
  classical
  set s : Finset Int := (Finset.range n).image it with hs
  have hinj : Set.InjOn it (Finset.range n) := by
    intro a ha b hb hab
    simp only [Finset.coe_range, Set.mem_Iio] at ha hb
    by_contra hne
    rcases Nat.lt_or_ge a b with h | h
    · exact hdist a b h hb hab
    · exact hdist b a (Nat.lt_of_le_of_ne h (Ne.symm hne)) ha hab.symm
  have hcard : s.card = n := by
    rw [hs, Finset.card_image_of_injOn hinj, Finset.card_range]
  have hsub : s ⊆ Finset.Ico (0 : Int) n := by
    intro x hx
    rw [hs] at hx
    rcases Finset.mem_image.mp hx with ⟨k, hk, hxk⟩
    rcases hrange k (Finset.mem_range.mp hk) with ⟨h0, h1⟩
    exact Finset.mem_Ico.mpr ⟨hxk ▸ h0, hxk ▸ h1⟩
  have hicocard : (Finset.Ico (0 : Int) n).card = n := by
    rw [Int.card_Ico]
    simp
  have hseq : s = Finset.Ico (0 : Int) n :=
    Finset.eq_of_subset_of_card_le hsub (le_of_eq (hicocard.trans hcard.symm))
  have : it n ∈ s := by
    rw [hseq]
    exact Finset.mem_Ico.mpr hn
  rcases Finset.mem_image.mp (hs ▸ this) with ⟨j, hj, hij⟩
  exact ⟨j, Finset.mem_range.mp hj, hij⟩

theorem circuitLoop_spec (arr : List Int) :
    ∀ fuel t, t ≤ arr.length → fuel + t = arr.length + 1 →
    (∀ k < t, 0 ≤ circuitIterate arr k ∧ circuitIterate arr k < arr.length) →
    (∀ j k, j < k → k < t → circuitIterate arr j ≠ circuitIterate arr k) →
    (circuitLoop arr fuel (visitedList arr t) (circuitIterate arr t) t
        = (arr.length, 0) ↔
      (∀ k < arr.length,
          0 ≤ circuitIterate arr k ∧ circuitIterate arr k < arr.length) ∧
      (∀ j k, j < k → k < arr.length →
          circuitIterate arr j ≠ circuitIterate arr k) ∧
      circuitIterate arr arr.length = 0) := by
  intro fuel
  induction fuel with
  | zero =>
    intro t ht hfuel
    omega
  | succ fuel ih =>
    intro t ht hfuel hrange hdist
    by_cases hmem : circuitIterate arr t ∈ visitedList arr t
    · rcases (mem_visitedList arr t _).mp hmem with ⟨j, hj, hij⟩
      rcases Nat.lt_or_ge t arr.length with htlt | htge
      · -- return (t, it t) with t < n: both sides are false
        rw [circuitLoop]
        simp only [if_pos hmem]
        constructor
        · intro h
          exact absurd (congrArg Prod.fst h) (by simp; omega)
        · rintro ⟨_, hd, _⟩
          exact absurd hij (hd j t hj htlt)
      · -- t = n: return (n, it n)
        have htn : t = arr.length := le_antisymm ht htge
        rw [circuitLoop]
        simp only [if_pos hmem]
        subst htn
        constructor
        · intro h
          refine ⟨hrange, hdist, ?_⟩
          have := congrArg Prod.snd h
          simpa using this
        · rintro ⟨_, _, h0⟩
          simp [h0]
    · by_cases hr : 0 ≤ circuitIterate arr t ∧ circuitIterate arr t < arr.length
      · -- good step: recurse
        have htlt : t < arr.length := by
          rcases Nat.lt_or_ge t arr.length with h | h
          · exact h
          · exfalso
            have htn : t = arr.length := le_antisymm ht h
            subst htn
            exact hmem ((mem_visitedList arr _ _).mpr
              (pigeonhole_iterate arr.length (circuitIterate arr) hrange hdist hr))
        rw [circuitLoop]
        simp only [if_neg hmem, if_pos hr]
        have hrec := ih (t + 1) htlt (by omega)
          (by
            intro k hk
            rcases Nat.lt_succ_iff_lt_or_eq.mp hk with h | h
            · exact hrange k h
            · exact h ▸ hr)
          (by
            intro j k hjk hk
            rcases Nat.lt_succ_iff_lt_or_eq.mp hk with h | h
            · exact hdist j k hjk h
            · subst h
              intro heq
              exact hmem ((mem_visitedList arr _ _).mpr ⟨j, hjk, heq⟩))
        simpa [visitedList, circuitIterate, succStep] using hrec
      · -- break: return (t, it t)
        rw [circuitLoop]
        simp only [if_neg hmem, if_neg hr]
        rcases Nat.lt_or_ge t arr.length with htlt | htge
        · constructor
          · intro h
            exact absurd (congrArg Prod.fst h) (by simp; omega)
          · rintro ⟨hran, _, _⟩
            exact absurd (hran t htlt) hr
        · have htn : t = arr.length := le_antisymm ht htge
          subst htn
          constructor
          · intro h
            have h2 := congrArg Prod.snd h
            simp at h2
            exact ⟨hrange, hdist, h2⟩
          · rintro ⟨_, _, h0⟩
            simp [h0]

/-- C4: `Circuit.value` walks the successor chain from index 0 counting
visited nodes and succeeds iff the walk stays in range, visits
`len(arr)` pairwise-distinct nodes, and its `len(arr)`-th step returns to
index 0; in particular `Circuit([1,2,0]).value()` is true and
`Circuit([0,1,2]).value()` is false. -/
theorem circuit_value_walk_characterization :
    (∀ arr : List Int,
      (circuitValue arr = true ↔
        (∀ k < arr.length,
            0 ≤ circuitIterate arr k ∧ circuitIterate arr k < arr.length) ∧
        (∀ j k, j < k → k < arr.length →
            circuitIterate arr j ≠ circuitIterate arr k) ∧
        circuitIterate arr arr.length = 0)) ∧
    circuitValue [1, 2, 0] = true ∧ circuitValue [0, 1, 2] = false := by
  refine ⟨?_, by decide, by decide⟩
  intro arr
  have h := circuitLoop_spec arr (arr.length + 1) 0 (Nat.zero_le _) rfl
    (by intro k hk; omega) (by intro j k hjk hk; omega)
  have hv : circuitValue arr = true ↔
      circuitLoop arr (arr.length + 1) [] 0 0 = (arr.length, 0) := by
    unfold circuitValue
    constructor
    · intro hb
      simp only [Bool.and_eq_true, decide_eq_true_eq] at hb
      exact Prod.ext hb.1 hb.2
    · intro hb
      simp [hb]
  rw [hv]
  simpa [visitedList, circuitIterate] using h

/-! ## SubCircuit and SubCircuitWithStart (globalconstraints.py) -/

/-- The start-index scan in `SubCircuit.value`: the first `i` with
`succ[i] != i`, or `None` when every position self-loops. -/
def firstNonSelfLoop (succ : List Int) : Option Nat :=
  (List.range succ.length).find? fun i => decide (succ.getD i 0 ≠ (i : Int))

/-- The collection loop of `SubCircuit.value` (`for i in range(len(succ))`).
State: the `visited` set (as a list) and the running `idx`; `none` models the
early `return False` paths (revisit or out-of-range successor), `some v` the
loop ending (by `break` on reaching the start, or by exhausting its `n`
iterations) with final visited set `v`. -/
def subCircuitCollect (succ : List Int) (start : Nat) :
    Nat → List Int → Int → Option (List Int)
  | 0, visited, _ => some visited
  | fuel + 1, visited, idx =>
    if idx = (start : Int) then some visited
    else if idx ∈ visited then none
    else if 0 ≤ idx ∧ idx < succ.length then
      subCircuitCollect succ start fuel (idx :: visited) (succStep succ idx)
    else none

/-- `SubCircuit.value`.  Note the source checks `AllDifferent(s).value()`
where `s` is the loop variable of the start-index scan, i.e. the single
integer `succ[start_index]` — a one-element all-different check, which always
succeeds. -/
def subCircuitValue (succ : List Int) : Bool :=
  match firstNonSelfLoop succ with
  | none => true
  | some start =>
    if allDifferentValue [succ.getD start 0] then
      match subCircuitCollect succ start succ.length
          [(start : Int)] (succ.getD start 0) with
      | none => false
      | some visited =>
        if (List.range succ.length).all fun i =>
            decide ((i : Int) ∈ visited) || decide (succ.getD i 0 = (i : Int)) then
          decide (succ.getD start 0 ≠ (start : Int))
        else false
    else false

/-- `SubCircuitWithStart.value`: `SubCircuit(succ).value() and
succ[start_index] != start_index`. -/
def subCircuitWithStartValue (succ : List Int) (start : Nat) : Bool :=
  subCircuitValue succ && decide (succ.getD start 0 ≠ (start : Int))

/-- C9: on a 4-element assignment in which every position self-loops,
`SubCircuit.value()` is true (empty subcircuit permitted) while
`SubCircuitWithStart.value()` is false for every designated start index. -/
theorem subcircuit_selfloops_value (succ : List Int)
    (hlen : succ.length = 4) (hself : ∀ i < 4, succ.getD i 0 = (i : Int)) :
    subCircuitValue succ = true ∧
    ∀ s : Fin 4, subCircuitWithStartValue succ s = false := by
  have hs : succ = [0, 1, 2, 3] := by
    apply List.ext_getElem
    · rw [hlen]
      rfl
    · intro i h1 h2
      have hi : i < 4 := by omega
      have := hself i hi
      rw [List.getD_eq_getElem _ _ h1] at this
      rw [this]
      match i, hi with
      | 0, _ => rfl
      | 1, _ => rfl
      | 2, _ => rfl
      | 3, _ => rfl
  subst hs
  exact ⟨by decide, by decide⟩

theorem subcircuit_selfloops_value_witness :
    subCircuitValue [0, 1, 2, 3] = true ∧
    ∀ s : Fin 4, subCircuitWithStartValue [0, 1, 2, 3] s = false :=
  subcircuit_selfloops_value [0, 1, 2, 3] (by decide) (by decide)

/-! ## Constructor validation (C7) -/

/-- Shape of a constructor argument, as far as the validation code inspects
it: `is_boolexpr(arg)` distinguishes Boolean expressions from arithmetic
ones. -/
inductive CArg where
  | boolArg : CArg
  | intArg : CArg
deriving DecidableEq

/-- The exception classes raised by the constructors. -/
inductive CtorError where
  | typeError
  | cpmpyException
  | valueError
deriving DecidableEq

def hasBoolArg (args : List CArg) : Bool :=
  args.any fun a => decide (a = CArg.boolArg)

/-- `Circuit.__init__`: Boolean arguments raise `TypeError`, fewer than two
arguments raise `CPMpyException`. -/
def circuitInit (args : List CArg) : Except CtorError Unit :=
  if hasBoolArg args then Except.error CtorError.typeError
  else if args.length < 2 then Except.error CtorError.cpmpyException
  else Except.ok ()

/-- `SubCircuit.__init__`: same validation as `Circuit.__init__`. -/
def subCircuitInit (args : List CArg) : Except CtorError Unit :=
  if hasBoolArg args then Except.error CtorError.typeError
  else if args.length < 2 then Except.error CtorError.cpmpyException
  else Except.ok ()

/-- `SubCircuitWithStart.__init__`: Boolean arguments raise `TypeError`;
`start_index` (here typed as an integer, so the `isinstance(start_index,
int)` check always passes) outside `[0, len(args)-1]` raises `ValueError`;
fewer than two arguments raise `CPMpyException` — in that order. -/
def subCircuitWithStartInit (args : List CArg) (start : Int) :
    Except CtorError Unit :=
  if hasBoolArg args then Except.error CtorError.typeError
  else if ¬ (0 ≤ start ∧ start < args.length) then Except.error CtorError.valueError
  else if args.length < 2 then Except.error CtorError.cpmpyException
  else Except.ok ()

/-- Modelled from the spec: `intvar(lb, ub)` (variables.py is not among the
sources) allocates a fresh integer variable with the inclusive bounds
`lb..ub`; a variable needs a non-empty domain.  `Circuit.decompose`
allocates `order = intvar(0, n-1, shape=n)`. -/
def intvarCheck (lb ub : Int) : Except CtorError Unit :=
  if lb ≤ ub then Except.ok () else Except.error CtorError.valueError

/-- The constructor calls performed by `Circuit.decompose`: it builds
`AllDifferent` constraints (whose constructor validates nothing) and
allocates `intvar(0, n-1)` variables. -/
def circuitDecomposeCheck (args : List CArg) : Except CtorError Unit := do
  let _ ← intvarCheck 0 ((args.length : Int) - 1)
  pure ()

/-- The constructor calls performed by `SubCircuitWithStart.decompose`: it
constructs `SubCircuit(self.args)` (whose constructor re-validates the
arguments) and a disequality on the start index. -/
def subCircuitWithStartDecomposeCheck (args : List CArg) :
    Except CtorError Unit := do
  let _ ← subCircuitInit args
  pure ()

/-- C7: malformed global-constraint arguments fail at construction time:
fewer than two `Circuit` arguments or a Boolean `Circuit` argument raise
from the constructor, `SubCircuitWithStart` with an out-of-range
`start_index` raises `ValueError`; and every well-constructed instance
decomposes without any such argument error. -/
theorem construction_errors_at_build_time :
    (∀ args : List CArg, args.length < 2 →
        ∃ e, circuitInit args = Except.error e) ∧
    (∀ args : List CArg, hasBoolArg args = true →
        circuitInit args = Except.error CtorError.typeError) ∧
    (∀ (args : List CArg) (start : Int), hasBoolArg args = false →
        ¬ (0 ≤ start ∧ start < args.length) →
        subCircuitWithStartInit args start = Except.error CtorError.valueError) ∧
    (∀ args : List CArg, circuitInit args = Except.ok () →
        circuitDecomposeCheck args = Except.ok ()) ∧
    (∀ (args : List CArg) (start : Int),
        subCircuitWithStartInit args start = Except.ok () →
        subCircuitWithStartDecomposeCheck args = Except.ok ()) := by
  refine ⟨?_, ?_, ?_, ?_, ?_⟩
  · intro args hlen
    unfold circuitInit
    by_cases hb : hasBoolArg args
    · exact ⟨CtorError.typeError, by simp [hb]⟩
    · exact ⟨CtorError.cpmpyException, by simp [hb, if_pos hlen]⟩
  · intro args hb
    simp [circuitInit, hb]
  · intro args start hb hrange
    simp [subCircuitWithStartInit, hb, hrange]
  · intro args hok
    unfold circuitInit at hok
    by_cases hb : hasBoolArg args = true
    · rw [if_pos hb] at hok
      exact absurd hok (by simp)
    · rw [if_neg hb] at hok
      by_cases hlen : args.length < 2
      · rw [if_pos hlen] at hok
        exact absurd hok (by simp)
      · unfold circuitDecomposeCheck intvarCheck
        have h2 : 2 ≤ args.length := Nat.le_of_not_lt hlen
        have hge : (0 : Int) ≤ (args.length : Int) - 1 := by
          have h2i : (2 : Int) ≤ (args.length : Int) := by exact_mod_cast h2
          omega
        simp [hge]
  · intro args start hok
    unfold subCircuitWithStartInit at hok
    by_cases hb : hasBoolArg args = true
    · rw [if_pos hb] at hok
      exact absurd hok (by simp)
    · rw [if_neg hb] at hok
      by_cases hrange : 0 ≤ start ∧ start < (args.length : Int)
      · rw [if_neg (not_not_intro hrange)] at hok
        by_cases hlen : args.length < 2
        · rw [if_pos hlen] at hok
          exact absurd hok (by simp)
        · unfold subCircuitWithStartDecomposeCheck subCircuitInit
          simp [hb, hlen]
      · rw [if_pos hrange] at hok
        exact absurd hok (by simp)

theorem construction_errors_witness :
    (∃ e, circuitInit [CArg.intArg] = Except.error e) ∧
    circuitInit [CArg.boolArg, CArg.intArg] = Except.error CtorError.typeError ∧
    subCircuitWithStartInit [CArg.intArg, CArg.intArg] 5
        = Except.error CtorError.valueError ∧
    circuitDecomposeCheck [CArg.intArg, CArg.intArg] = Except.ok () ∧
    subCircuitWithStartDecomposeCheck [CArg.intArg, CArg.intArg] = Except.ok () :=
  ⟨construction_errors_at_build_time.1 [CArg.intArg] (by decide),
   construction_errors_at_build_time.2.1 [CArg.boolArg, CArg.intArg] (by decide),
   construction_errors_at_build_time.2.2.1 [CArg.intArg, CArg.intArg] 5
     (by decide) (by decide),
   construction_errors_at_build_time.2.2.2.1 [CArg.intArg, CArg.intArg] rfl,
   construction_errors_at_build_time.2.2.2.2 [CArg.intArg, CArg.intArg] 0 rfl⟩

/-! ## Xor argument canonicalization (C8) -/

/-- An `Xor` constructor argument: a Boolean constant (`is_num` is true for
Python `bool`, a subtype of `int`) or a Boolean variable/expression
(`is_num` false). -/
inductive XArg where
  | cst : Bool → XArg
  | bvar : Nat → XArg
deriving DecidableEq

def xargIsNum : XArg → Bool
  | XArg.cst _ => true
  | XArg.bvar _ => false

/-- The argument canonicalization in `Xor.__init__`: with exactly two
arguments, if the right one is a numeric constant the pair is swapped
(`arg_list[0], arg_list[1] = arg_list[1], arg_list[0]`), putting the
constant first. -/
def xorCtorArgs (argList : List XArg) : List XArg :=
  match argList with
  | [a, b] => if xargIsNum b then [b, a] else [a, b]
  | l => l

/-- C8 counterexample: constructing `Xor([bv, True])` — exactly one operand
a numeric constant — swaps the pair so the constant ends up as the LEFT
(first) element of the stored argument list, contradicting the claim that a
constant never appears on the left. -/
theorem xor_swap_moves_constant_left :
    xorCtorArgs [XArg.bvar 0, XArg.cst true] = [XArg.cst true, XArg.bvar 0] ∧
    xargIsNum ((xorCtorArgs [XArg.bvar 0, XArg.cst true]).getD 0 (XArg.bvar 0))
        = true := by decide

/-- C8 amended: in a 2-argument `Xor` construction with exactly one numeric
constant operand, the stored argument list never has the constant as its
RIGHT (second) element — the swap moves a right-hand constant to the front. -/
theorem xor_constant_never_right (a b : XArg) (h : xargIsNum a ≠ xargIsNum b) :
    xargIsNum ((xorCtorArgs [a, b]).getD 1 (XArg.bvar 0)) = false := by
  unfold xorCtorArgs
  by_cases hb : xargIsNum b = true
  · rcases ha : xargIsNum a with _ | _
    · simp [hb, ha]
    · rw [ha, hb] at h
      exact absurd rfl h
  · simp only [hb]
    simp only [Bool.not_eq_true] at hb
    simp [hb]

theorem xor_constant_never_right_witness :
    xargIsNum ((xorCtorArgs [XArg.bvar 0, XArg.cst true]).getD 1 (XArg.bvar 0))
        = false :=
  xor_constant_never_right (XArg.bvar 0) (XArg.cst true) (by decide)

/-! ## Cumulative.value (C10) -/

/-- Outcome of a Python call to `Cumulative.value()`: the method can return
`None`, return a Boolean, or raise an exception. -/
inductive CumulRes where
  | retNone : CumulRes
  | ret : Bool → CumulRes
  | exn : CumulRes
deriving DecidableEq

def listHasNone (l : List (Option Int)) : Bool :=
  l.any fun a => decide (a = none)

/-- Total demand of the jobs active at time `t`:
`sum(demand * ((start <= t) & (t < end)))`. -/
def activeDemandSum (s e dm : List Int) (t : Int) : Int :=
  ((s.zip e).zip dm).foldl
    (fun acc x => acc + (if x.1.1 ≤ t ∧ t < x.1.2 then x.2 else 0)) 0

/-- `Cumulative.value`.  The constructor stores `start`, `duration`, `end`
and `demand` as lists and `capacity` as a scalar; `value()` turns the list
arguments into numpy arrays of their entry values (`None` for an unassigned
variable) and the scalar into its value.  The guard
`any(a is None for a in arg_vals)` therefore only ever sees `None` for the
scalar capacity — a numpy array is never `None` — so an unassigned entry
inside a list argument slips through and the subsequent arithmetic
(`start + dur == end`, `demand * mask`) raises a `TypeError`, modelled as
`CumulRes.exn`.  `min(start)`/`max(end)` on empty lists likewise raise. -/
def cumulativeValue (start dur fin demand : List (Option Int))
    (capacity : Option Int) : CumulRes :=
  if capacity = none then CumulRes.retNone
  else if listHasNone start || listHasNone dur || listHasNone fin then
    CumulRes.exn
  else
    let s := start.map (fun a => a.getD 0)
    let d := dur.map (fun a => a.getD 0)
    let e := fin.map (fun a => a.getD 0)
    if ¬ (∀ i < s.length, s.getD i 0 + d.getD i 0 = e.getD i 0) then
      CumulRes.ret false
    else
      match s.min?, e.max? with
      | some lb, some ub =>
        if lb ≤ ub then
          if listHasNone demand then CumulRes.exn
          else
            let dm := demand.map (fun a => a.getD 0)
            if (List.range (ub - lb + 1).toNat).any fun k =>
                decide (capacity.getD 0 < activeDemandSum s e dm (lb + k)) then
              CumulRes.ret false
            else CumulRes.ret true
        else CumulRes.ret true
      | _, _ => CumulRes.exn

/-- C10: the claim says `Cumulative.value()` returns `None` whenever any
argument entry is unassigned.  The code only catches an unassigned
capacity; an unassigned entry inside the `start` list raises a `TypeError`
instead (here: one job with unassigned start).  An unassigned capacity is
indeed reported as `None`. -/
theorem cumulative_value_unassigned_entry :
    cumulativeValue [none] [some 1] [some 1] [some 1] (some 2) = CumulRes.exn ∧
    cumulativeValue [some 0] [some 1] [some 1] [some 1] none
        = CumulRes.retNone := by
  constructor
  · rfl
  · rfl

/-! ## Linearization (transformations/linearize.py)

The expression language reaching `linearize_constraint` (flat normal form
plus everything the pass itself constructs): variables, constants, `sum`,
`wsum`, `sub`, `mul`, `element`, conjunction, disjunction, implication,
comparisons and the `alldifferent` global. -/

inductive Cop where
  | ceq
  | cne
  | clt
  | cle
  | cgt
  | cge
deriving DecidableEq

inductive LinE where
  | ivar : Nat → Int → Int → LinE
  | bvar : Nat → LinE
  | negb : Nat → LinE
  | const : Int → LinE
  | esum : List LinE → LinE
  | wsum : List Int → List LinE → LinE
  | sub : LinE → LinE → LinE
  | mul : LinE → LinE → LinE
  | element : List LinE → LinE → LinE
  | conj : List LinE → LinE
  | disj : List LinE → LinE
  | impl : LinE → LinE → LinE
  | cmp : Cop → LinE → LinE → LinE
  | alldiff : List LinE → LinE

namespace LinE

/-- `isinstance(e, _BoolVarImpl)` — a Boolean variable or its negated view. -/
def isBoolVarImpl : LinE → Bool
  | bvar _ => true
  | negb _ => true
  | _ => false

/-- `isinstance(e, _NumVarImpl)` — any decision variable (Boolean variables
are num-vars with a {0,1} domain). -/
def isNumVarImpl : LinE → Bool
  | ivar _ _ _ => true
  | bvar _ => true
  | negb _ => true
  | _ => false

/-- `is_num(e)` — a Python int constant. -/
def isNum : LinE → Bool
  | const _ => true
  | _ => false

def isNegb : LinE → Bool
  | negb _ => true
  | _ => false

/-- Negation `~e` of a Boolean variable (`NegBoolView` flips back to the
underlying variable). -/
def bnot : LinE → LinE
  | bvar n => negb n
  | negb n => bvar n
  | e => e

end LinE

open LinE

mutual

/-- Modelled from the spec: bounds of a (linear) expression as computed by
`get_bounds` (expressions/utils.py is not among the sources): variables
carry their stored inclusive bounds, Boolean views have bounds {0,1},
constants are singletons, and sums/weighted sums/differences propagate
interval arithmetic. -/
def boundsOf : LinE → Int × Int
  | LinE.ivar _ lb ub => (lb, ub)
  | LinE.bvar _ => (0, 1)
  | LinE.negb _ => (0, 1)
  | LinE.const c => (c, c)
  | LinE.esum args => boundsSum args
  | LinE.wsum ws args => boundsWsum ws args
  | LinE.sub a b =>
    let x := boundsOf a
    let y := boundsOf b
    (x.1 - y.2, x.2 - y.1)
  | _ => (0, 0)

def boundsSum : List LinE → Int × Int
  | [] => (0, 0)
  | a :: rest =>
    let x := boundsOf a
    let r := boundsSum rest
    (x.1 + r.1, x.2 + r.2)

def boundsWsum : List Int → List LinE → Int × Int
  | _, [] => (0, 0)
  | [], _ :: _ => (0, 0)
  | w :: ws, a :: rest =>
    let x := boundsOf a
    let r := boundsWsum ws rest
    (min (w * x.1) (w * x.2) + r.1, max (w * x.1) (w * x.2) + r.2)

end

/-- Modelled from the spec: cpmpy's overloaded Python `sum` over expressions
(core.py is not among the sources) elides the integer 0 it starts from, so a
single summand stays as it is; otherwise an n-ary `sum` operator results. -/
def pySum : List LinE → LinE
  | [] => LinE.const 0
  | [e] => e
  | es => LinE.esum es

/-- Modelled from the spec: Python `sum` over products `w * arg` collapses
the weight/argument pairs into a weighted sum (`only_positive_bv` itself
notes wsum is forced "even for arity = 1"). -/
def pyWsum : List (Int × LinE) → LinE
  | [] => LinE.const 0
  | pairs => LinE.wsum (pairs.map Prod.fst) (pairs.map Prod.snd)

/-- Adding an integer constant to an expression (`rhs - 1`, `rhs + M + 1`,
...): pure integer arithmetic on constants, zero elided, otherwise a `sum`
with the constant. -/
def pyAddConst (e : LinE) (k : Int) : LinE :=
  match e with
  | LinE.const c => LinE.const (c + k)
  | e => if k = 0 then e else LinE.esum [e, LinE.const k]

/-- The weight/argument pairs of a linear expression, used where the code
appends one term to it (`lhs + -1*rhs`, `lhs - M*z`). -/
def linPairs : LinE → List (Int × LinE)
  | LinE.esum args => args.map fun a => (1, a)
  | LinE.wsum ws args => ws.zip args
  | e => [(1, e)]

/-- Modelled from the spec: `get_or_make_var` (flatten_model.py is not among
the sources) returns a variable or constant unchanged with no extra
constraints; otherwise it allocates a fresh auxiliary variable bounded by
the true bounds of the expression, plus the defining equality. -/
def getOrMakeVar (e : LinE) (ctr : Nat) : LinE × List LinE × Nat :=
  if e.isNumVarImpl || e.isNum then (e, [], ctr)
  else
    let b := boundsOf e
    (LinE.ivar ctr b.1 b.2,
     [LinE.cmp Cop.ceq e (LinE.ivar ctr b.1 b.2)], ctr + 1)

/-- The `alldifferent` branch of `linearize_constraint`: bipartite value
assignment with a fresh one-hot matrix `sigma` (`sigma[i][k]` is Boolean
variable `ctr + i*m + k`), rows summing to 1, columns at most 1, and a
weighted-sum link per row; the bounds scan `min(arg.lb ...)`/`max(arg.ub
...)` requires variable arguments and a non-empty list.  The constraints
are returned directly, without another linearization round. -/
def linAllDiff (args : List LinE) (ctr : Nat) : Option (List LinE × Nat) :=
  if args.isEmpty || args.any (fun a => !a.isNumVarImpl) then none
  else
    let lbs := args.map fun a => (boundsOf a).1
    let ubs := args.map fun a => (boundsOf a).2
    let lb := lbs.foldl min (lbs.headD 0)
    let ub := ubs.foldl max (ubs.headD 0)
    let m := (1 + ub - lb).toNat
    let n := args.length
    let row := fun i => (List.range m).map fun k => LinE.bvar (ctr + i * m + k)
    let cs1 := (List.range n).map fun i =>
      LinE.cmp Cop.ceq (pySum (row i)) (LinE.const 1)
    let cs2 := (List.range m).map fun k =>
      LinE.cmp Cop.cle
        (pySum ((List.range n).map fun i => LinE.bvar (ctr + i * m + k)))
        (LinE.const 1)
    let cs3 := ((List.range n).zip args).map fun p =>
      LinE.cmp Cop.ceq
        (LinE.wsum ((List.range m).map fun k => lb + k) (row p.1)) p.2
    some (cs1 ++ cs2 ++ cs3, ctr + n * m)

/-- The first normalisation block of the `Comparison` branch (`if lhs.name
not in supported`): a supported `sum`/`wsum` left side passes through; a
variable compared to a number passes; variable-vs-variable is moved to one
side (`lhs + -1*rhs`, right side 0); `sub` becomes a unit-weighted `wsum`;
anything else (with `element` and constants handled by the caller) raises. -/
def linStep1 (lhs0 rhs0 : LinE) : Option (LinE × LinE) :=
  match lhs0 with
  | LinE.esum _ => some (lhs0, rhs0)
  | LinE.wsum _ _ => some (lhs0, rhs0)
  | _ =>
    if lhs0.isNumVarImpl && rhs0.isNum then some (lhs0, rhs0)
    else if lhs0.isNumVarImpl && rhs0.isNumVarImpl then
      some (LinE.wsum [1, -1] [lhs0, rhs0], LinE.const 0)
    else
      match lhs0 with
      | LinE.sub a b => some (pySum [LinE.wsum [1, -1] [a, b]], rhs0)
      | _ => none

/-- For a `sum`/`wsum` left side with a variable right side, bring the
variable to the left (`sum` merges into a weighted sum, `wsum` appends the
term) and set the right side to 0. -/
def linMoveRhs (p : LinE × LinE) : LinE × LinE :=
  match p.1 with
  | LinE.esum args =>
    if p.2.isNumVarImpl then
      (LinE.wsum ((-1) :: args.map fun _ => (1 : Int)) (p.2 :: args),
       LinE.const 0)
    else p
  | LinE.wsum ws args =>
    if p.2.isNumVarImpl then
      (LinE.wsum (ws ++ [-1]) (args ++ [p.2]), LinE.const 0)
    else p
  | _ => p

/-- Move the constant arguments of a `sum`/`wsum` left side to the right
side. -/
def linCollect (p : LinE × LinE) : LinE × LinE :=
  match p.1 with
  | LinE.esum args =>
    let k := (args.filter LinE.isNum).foldl
      (fun acc a => acc + (match a with | LinE.const c => c | _ => 0)) 0
    (pySum (args.filter fun a => !a.isNum), pyAddConst p.2 (-k))
  | LinE.wsum ws args =>
    let pairs := ws.zip args
    let k := (pairs.filter fun q => q.2.isNum).foldl
      (fun acc q =>
        acc + q.1 * (match q.2 with | LinE.const c => c | _ => 0)) 0
    (pyWsum (pairs.filter fun q => !q.2.isNum), pyAddConst p.2 (-k))
  | _ => p

/-- Fold a constant multiplication into a unit `wsum`. -/
def linFoldMul : LinE → LinE
  | LinE.mul (LinE.const c) b => LinE.wsum [c] [b]
  | l => l

/-- The three recursion entry points of the linearization pass: a single
constraint, the tail of the `Comparison` branch, and a list of
constraints. -/
inductive LReq where
  | one : Bool → LinE → LReq
  | main : Bool → Cop → LinE → LinE → LReq
  | netail : Bool → LinE → LinE → LReq
  | list : Bool → List LinE → LReq

/-- `linearize_constraint` (linearize.py), with the default
`supported = {"sum", "wsum"}`.  The fresh-variable counter is threaded
explicitly; `none` models a raised error (`assert`, `NotImplementedError`,
attribute error on a constant) as well as fuel exhaustion (the pass
recurses on constraints it constructs; fuel drops by one per dispatch).

`LReq.one` is the function applied to one expression: Boolean literals,
conjunction, disjunction and implication first, then comparisons
(`LReq.main`) and the `alldifferent` rewriting; any other named expression
falls through unchanged.

`LReq.main` is the `Comparison` branch: a constant left side has no `name`
attribute (raises); an `element` left side is channelled through a one-hot
vector; otherwise the normalisation stages run, followed by the fix-up of
strict and disequality comparisons (the `!=` Big-M path allocates the
indicator and the two bound probes of `M = max(|lhs-rhs|)+1`, whose
defining constraints the source discards).

`LReq.list` maps the pass over a list and concatenates. -/
def linRun : Nat → LReq → Nat → Option (List LinE × Nat)
  | 0, _, _ => none
  | fuel + 1, LReq.one reified e, ctr =>
    match e with
    | LinE.negb n =>
      some ([LinE.cmp Cop.cle (pySum [LinE.bvar n]) (LinE.const 0)], ctr)
    | LinE.bvar n =>
      some ([LinE.cmp Cop.cge (pySum [LinE.bvar n]) (LinE.const 1)], ctr)
    | LinE.conj args =>
      some ([LinE.cmp Cop.cge (pySum args) (LinE.const args.length)], ctr)
    | LinE.disj args =>
      some ([LinE.cmp Cop.cge (pySum args) (LinE.const 1)], ctr)
    | LinE.impl cond csq =>
      if cond.isBoolVarImpl then
        if csq.isBoolVarImpl then
          linRun fuel (LReq.one reified (LinE.disj [cond.bnot, csq])) ctr
        else
          match linRun fuel (LReq.one true csq) ctr with
          | none => none
          | some (linSub, c1) =>
            some (linSub.map fun l => LinE.impl cond l, c1)
      else none
    | LinE.cmp op lhs rhs => linRun fuel (LReq.main reified op lhs rhs) ctr
    | LinE.alldiff args => linAllDiff args ctr
    | LinE.const _ => none
    | other => some ([other], ctr)
  | fuel + 1, LReq.main reified op lhs0 rhs0, ctr =>
    match lhs0 with
    | LinE.const _ => none
    | LinE.element arr idx =>
      let n := arr.length
      let sigma := (List.range n).map fun k => LinE.bvar (ctr + k)
      let cs := [LinE.cmp Cop.ceq (pySum sigma) (LinE.const 1),
                 LinE.cmp Cop.ceq
                   (LinE.wsum ((List.range n).map Int.ofNat) sigma) idx]
                ++ (sigma.zip arr).map fun p =>
                     LinE.impl p.1 (LinE.cmp op p.2 rhs0)
      linRun fuel (LReq.list reified cs) (ctr + n)
    | _ =>
      match linStep1 lhs0 rhs0 with
      | none => none
      | some pA =>
        let pC := linCollect (linMoveRhs pA)
        let lhsD := linFoldMul pC.1
        let rhsC := pC.2
        match op with
        | Cop.clt =>
          let r := getOrMakeVar (pyAddConst rhsC (-1)) ctr
          some ([LinE.cmp Cop.cle lhsD r.1] ++ r.2.1, r.2.2)
        | Cop.cgt =>
          let r := getOrMakeVar (pyAddConst rhsC 1) ctr
          some ([LinE.cmp Cop.cge lhsD r.1] ++ r.2.1, r.2.2)
        | Cop.cne => linRun fuel (LReq.netail reified lhsD rhsC) ctr
        | _ => some ([LinE.cmp op lhsD rhsC], ctr)
  | fuel + 1, LReq.netail reified lhsD rhsC, ctr =>
    if lhsD.isBoolVarImpl && rhsC.isBoolVarImpl then
      some ([LinE.cmp Cop.ceq (LinE.esum [lhsD, rhsC]) (LinE.const 1)], ctr)
    else
      if reified ||
          (!(match lhsD with
             | LinE.esum _ => true
             | LinE.wsum _ _ => true
             | _ => false) && !lhsD.isNumVarImpl) then
        let z := ctr
        let e1 := LinE.sub (pyAddConst lhsD 1) rhsC
        let r1 := getOrMakeVar e1 (ctr + 1)
        let e2 := LinE.sub (pyAddConst rhsC 1) lhsD
        let r2 := getOrMakeVar e2 r1.2.2
        let M := max (boundsOf e1).2 (boundsOf e2).2
        let cs := [LinE.cmp Cop.cle
                     (pyWsum (linPairs lhsD ++ [(-M, LinE.bvar z)]))
                     (pyAddConst rhsC (-1)),
                   LinE.cmp Cop.cge
                     (pyWsum (linPairs lhsD ++ [(M, LinE.bvar z)]))
                     (pyAddConst rhsC (M + 1))]
        linRun fuel (LReq.list reified cs) r2.2.2
      else
        let z := ctr
        let cs := [LinE.impl (LinE.bvar z) (LinE.cmp Cop.clt lhsD rhsC),
                   LinE.impl (LinE.negb z) (LinE.cmp Cop.cgt lhsD rhsC)]
        linRun fuel (LReq.list reified cs) (ctr + 1)
  | fuel + 1, LReq.list reified es, ctr =>
    match es with
    | [] => some ([], ctr)
    | e :: rest =>
      match linRun fuel (LReq.one reified e) ctr with
      | none => none
      | some (o1, c1) =>
        match linRun fuel (LReq.list reified rest) c1 with
        | none => none
        | some (o2, c2) => some (o1 ++ o2, c2)

/-- `linearize_constraint` on one expression. -/
def linCons (fuel : Nat) (reified : Bool) (e : LinE) (ctr : Nat) :
    Option (List LinE × Nat) :=
  linRun fuel (LReq.one reified e) ctr

/-- `linearize_constraint` on a list of constraints (the
`is_any_list(cpm_expr)` branch): map and concatenate. -/
def linList (fuel : Nat) (reified : Bool) (es : List LinE) (ctr : Nat) :
    Option (List LinE × Nat) :=
  linRun fuel (LReq.list reified es) ctr

/-- The sign/offset fold `-lhs._bv` applied by `only_positive_bv` to a lone
negated view on the left of a comparison (modelled, per the spec, as the
weighted sum with weight -1 over the underlying variable). -/
def negOfVar (n : Nat) : LinE := LinE.wsum [-1] [LinE.bvar n]

/-- Replacement of direct negated-view arguments of a non-`sum`/`wsum`
operator on a comparison's left side: each `NegBoolView` argument becomes a
fresh `get_or_make_var(1 - arg)` auxiliary, collecting the defining
constraints. -/
def replaceNegbArgs (args : List LinE) (ctr : Nat) :
    List LinE × List LinE × Nat :=
  args.foldl
    (fun acc a =>
      match a with
      | LinE.negb n =>
        let r := getOrMakeVar (LinE.sub (LinE.const 1) (LinE.negb n)) acc.2.2
        (acc.1 ++ [r.1], acc.2.1 ++ r.2.1, r.2.2)
      | _ => (acc.1 ++ [a], acc.2.1, acc.2.2))
    ([], [], ctr)

/-- Flipping one weight/argument pair of a `wsum`: a negated view becomes
its underlying variable with negated weight (`(-w, a._bv)`); anything else
is untouched. -/
def opbFlip (q : Int × LinE) : Int × LinE :=
  match q.2 with
  | LinE.negb m => (-q.1, LinE.bvar m)
  | _ => q

/-- `only_positive_bv` (linearize.py) on a single expression: fold a lone
negated view on a comparison's left into a sign/offset flip, turn a `sum`
containing negated views into a `wsum`, flip negated views inside a `wsum`
(adjusting the right side), replace negated-view arguments of other
operators by fresh `1 - view` auxiliaries, recurse under implications with
a Boolean-variable antecedent, and pass global constraints through
unchanged; anything else raises (`none`).  A `wsum` with an empty argument
list makes the `zip(*...)` unpacking raise. -/
def opb : LinE → Nat → Option (List LinE × Nat)
  | LinE.cmp op lhs0 rhs0, ctr =>
    let s1 : LinE × LinE :=
      match lhs0 with
      | LinE.negb n => (negOfVar n, pyAddConst rhs0 (-1))
      | _ => (lhs0, rhs0)
    let lhs2 : LinE :=
      match s1.1 with
      | LinE.esum args =>
        if args.any LinE.isNegb then
          LinE.wsum (args.map fun _ => (1 : Int)) args
        else s1.1
      | _ => s1.1
    match lhs2 with
    | LinE.wsum ws args =>
      if args.isEmpty then none
      else
        let pairs := ws.zip args
        let flipped := pairs.map opbFlip
        let offset := (pairs.filter fun p => p.2.isNegb).foldl
          (fun acc p => acc + p.1) 0
        some ([LinE.cmp op
                 (LinE.wsum (flipped.map Prod.fst) (flipped.map Prod.snd))
                 (pyAddConst s1.2 (-offset))], ctr)
    | LinE.sub a b =>
      let r := replaceNegbArgs [a, b] ctr
      some ([LinE.cmp op (LinE.sub (r.1.getD 0 a) (r.1.getD 1 b)) s1.2]
              ++ r.2.1, r.2.2)
    | LinE.mul a b =>
      let r := replaceNegbArgs [a, b] ctr
      some ([LinE.cmp op (LinE.mul (r.1.getD 0 a) (r.1.getD 1 b)) s1.2]
              ++ r.2.1, r.2.2)
    | LinE.conj args =>
      let r := replaceNegbArgs args ctr
      some ([LinE.cmp op (LinE.conj r.1) s1.2] ++ r.2.1, r.2.2)
    | LinE.disj args =>
      let r := replaceNegbArgs args ctr
      some ([LinE.cmp op (LinE.disj r.1) s1.2] ++ r.2.1, r.2.2)
    | LinE.impl a b =>
      let r := replaceNegbArgs [a, b] ctr
      some ([LinE.cmp op (LinE.impl (r.1.getD 0 a) (r.1.getD 1 b)) s1.2]
              ++ r.2.1, r.2.2)
    | lhsF => some ([LinE.cmp op lhsF s1.2], ctr)
  | LinE.impl cond csq, ctr =>
    if cond.isBoolVarImpl then
      match opb csq ctr with
      | none => none
      | some (subs, c1) => some (subs.map fun e => LinE.impl cond e, c1)
    else none
  | LinE.alldiff args, ctr => some ([LinE.alldiff args], ctr)
  | _, _ => none

/-- `only_positive_bv` on a list of constraints: map and concatenate. -/
def opbList : List LinE → Nat → Option (List LinE × Nat)
  | [], ctr => some ([], ctr)
  | e :: rest, ctr =>
    match opb e ctr with
    | none => none
    | some (o1, c1) =>
      match opbList rest c1 with
      | none => none
      | some (o2, c2) => some (o1 ++ o2, c2)

/-! Shape predicates: the flat normal form assumed at the input of
`linearize_constraint`, the comparison shapes it emits, and the
negated-view-freedom its composition with `only_positive_bv` establishes. -/

namespace LinE

/-- Non-empty argument list of decision variables (possibly negated
views). -/
def varArgsOK (args : List LinE) : Bool :=
  !args.isEmpty && args.all isNumVarImpl

/-- A variable or a constant (the admissible right side of a flat
comparison). -/
def leafOK (e : LinE) : Bool := e.isNumVarImpl || e.isNum

/-- A comparison left side in flat normal form. -/
def flatLhsOK : LinE → Bool
  | esum args => varArgsOK args
  | wsum ws args => varArgsOK args && decide (ws.length = args.length)
  | sub a b => a.isNumVarImpl && b.isNumVarImpl
  | element arr idx => !arr.isEmpty && arr.all isNumVarImpl && leafOK idx
  | e => e.isNumVarImpl

/-- A constraint in flat normal form, as assumed by `linearize_constraint`
("'flat normal form' ... implications only contain boolean variables on the
lhs"). -/
def flatTop : LinE → Bool
  | bvar _ => true
  | negb _ => true
  | conj args => !args.isEmpty && args.all isBoolVarImpl
  | disj args => !args.isEmpty && args.all isBoolVarImpl
  | impl cond csq =>
    cond.isBoolVarImpl &&
      (csq.isBoolVarImpl ||
        (match csq with
         | conj args => !args.isEmpty && args.all isBoolVarImpl
         | disj args => !args.isEmpty && args.all isBoolVarImpl
         | cmp _ l r => flatLhsOK l && leafOK r
         | _ => false))
  | cmp _ l r => flatLhsOK l && leafOK r
  | alldiff args => !args.isEmpty && args.all isNumVarImpl
  | _ => false

/-- The left sides the comparison normalisation stages produce: a variable,
or a non-empty `sum`/`wsum` over variables. -/
def normLhsOK : LinE → Bool
  | esum args => varArgsOK args
  | wsum ws args => varArgsOK args && decide (ws.length = args.length)
  | e => e.isNumVarImpl

/-- The inputs the comparison normalisation stages accept without an early
return: `element` and constant left sides are dispatched beforehand. -/
def normInput : LinE → Bool
  | esum args => varArgsOK args
  | wsum ws args => varArgsOK args && decide (ws.length = args.length)
  | sub a b => a.isNumVarImpl && b.isNumVarImpl
  | e => e.isNumVarImpl

mutual

/-- No negated Boolean view occurs anywhere in the expression. -/
def negbFree : LinE → Bool
  | negb _ => false
  | esum args => negbFreeList args
  | wsum _ args => negbFreeList args
  | sub a b => negbFree a && negbFree b
  | mul a b => negbFree a && negbFree b
  | element arr i => negbFreeList arr && negbFree i
  | conj args => negbFreeList args
  | disj args => negbFreeList args
  | impl a b => negbFree a && negbFree b
  | cmp _ a b => negbFree a && negbFree b
  | alldiff args => negbFreeList args
  | _ => true

def negbFreeList : List LinE → Bool
  | [] => true
  | a :: rest => negbFree a && negbFreeList rest

end

/-- Comparison left sides emitted by `linearize_constraint`: a variable or
a constant, or a `sum`/`wsum` whose direct arguments are variables or
constants. -/
def midLhsOK : LinE → Bool
  | esum args => args.all leafOK
  | wsum _ args => args.all leafOK
  | e => e.isNumVarImpl || e.isNum

/-- A constant or a positive (non-negated) variable. -/
def rhsOK (e : LinE) : Bool := e.isNum || (e.isNumVarImpl && !e.isNegb)

/-- Comparison shapes emitted by `linearize_constraint`: well-shaped left
side; right side a constant or a positive variable, or — only against a
negated-view-free left side, as in the value-link rows of the
`alldifferent` rewriting — a negated view; implications carry a
Boolean-literal antecedent. -/
def midOK : LinE → Bool
  | cmp _ l r => midLhsOK l && (rhsOK r || (r.isNegb && negbFree l))
  | impl cond csq => cond.isBoolVarImpl && midOK csq
  | _ => false

/-- The amended linear-form closure: negated views are eliminated from
comparison left sides and from every `sum`/`wsum` argument list; a negated
view may remain only as the Boolean-literal antecedent of an implication
(which the linear normal form explicitly allows: "Where BoolVar is a
boolean variable or its negation") or as the entire right side of a
comparison (the `alldifferent` value-link rows are returned without
re-linearization, and `only_positive_bv` rewrites only left sides). -/
def postOK : LinE → Bool
  | impl cond csq => cond.isBoolVarImpl && postOK csq
  | cmp _ l r => negbFree l && (negbFree r || r.isNegb)
  | e => negbFree e

end LinE

namespace LinE

theorem isNumVarImpl_not_isNum {e : LinE} (h : e.isNumVarImpl = true) :
    e.isNum = false := by
  cases e <;> simp_all [isNumVarImpl, isNum]

theorem isBoolVarImpl_isNumVarImpl {e : LinE} (h : e.isBoolVarImpl = true) :
    e.isNumVarImpl = true := by
  cases e <;> simp_all [isBoolVarImpl, isNumVarImpl]

theorem bnot_isBoolVarImpl {e : LinE} (h : e.isBoolVarImpl = true) :
    e.bnot.isBoolVarImpl = true := by
  cases e <;> simp_all [isBoolVarImpl, bnot]

theorem normLhsOK_of_isNumVarImpl {e : LinE} (h : e.isNumVarImpl = true) :
    normLhsOK e = true := by
  cases e <;> simp_all [isNumVarImpl, normLhsOK]

theorem midLhsOK_of_normLhsOK {e : LinE} (h : normLhsOK e = true) :
    midLhsOK e = true := by
  cases e <;>
    simp_all [normLhsOK, midLhsOK, varArgsOK, leafOK, isNumVarImpl,
      List.all_eq_true]

theorem flatLhsOK_of_normLhsOK {e : LinE} (h : normLhsOK e = true) :
    flatLhsOK e = true := by
  cases e <;> simp_all [normLhsOK, flatLhsOK, isNumVarImpl]

theorem normInput_of_flatLhsOK {e : LinE} (h : flatLhsOK e = true)
    (hne : ∀ arr idx, e ≠ LinE.element arr idx) : normInput e = true := by
  cases e <;> simp_all [flatLhsOK, normInput]

theorem ivar_isNumVarImpl (n : Nat) (lb ub : Int) :
    (LinE.ivar n lb ub).isNumVarImpl = true := rfl

theorem bvar_isNumVarImpl (n : Nat) : (LinE.bvar n).isNumVarImpl = true := rfl

theorem negb_isNumVarImpl (n : Nat) : (LinE.negb n).isNumVarImpl = true := rfl

theorem midLhsOK_of_var {e : LinE} (h : e.isNumVarImpl = true) :
    midLhsOK e = true := by
  cases e <;> simp_all [isNumVarImpl, midLhsOK]

theorem negbFreeList_eq_all (l : List LinE) :
    negbFreeList l = l.all negbFree := by
  induction l with
  | nil => rfl
  | cons a rest ih => simp [negbFreeList, ih]

theorem negbFree_not_isNegb {e : LinE} (h : negbFree e = true) :
    e.isNegb = false := by
  cases e <;> simp_all [negbFree, isNegb]

end LinE

open LinE

theorem filter_notNum_of_vars {args : List LinE}
    (h : args.all isNumVarImpl = true) :
    args.filter (fun a => !a.isNum) = args := by
  apply List.filter_eq_self.mpr
  intro a ha
  rw [List.all_eq_true] at h
  simp [isNumVarImpl_not_isNum (h a ha)]

theorem filter_num_nil_of_vars {args : List LinE}
    (h : args.all isNumVarImpl = true) :
    args.filter LinE.isNum = [] := by
  rw [List.filter_eq_nil_iff]
  intro a ha
  rw [List.all_eq_true] at h
  simp [isNumVarImpl_not_isNum (h a ha)]

theorem zip_filter_notNum_of_vars {ws : List Int} {args : List LinE}
    (h : args.all isNumVarImpl = true) :
    (ws.zip args).filter (fun q => !q.2.isNum) = ws.zip args := by
  apply List.filter_eq_self.mpr
  intro q hq
  rw [List.all_eq_true] at h
  simp [isNumVarImpl_not_isNum (h q.2 (List.of_mem_zip hq).2)]

theorem zip_filter_num_nil_of_vars {ws : List Int} {args : List LinE}
    (h : args.all isNumVarImpl = true) :
    (ws.zip args).filter (fun q => q.2.isNum) = [] := by
  rw [List.filter_eq_nil_iff]
  intro q hq
  rw [List.all_eq_true] at h
  simp [isNumVarImpl_not_isNum (h q.2 (List.of_mem_zip hq).2)]

theorem pyWsum_cons (q : Int × LinE) (qs : List (Int × LinE)) :
    pyWsum (q :: qs) =
      LinE.wsum ((q :: qs).map Prod.fst) ((q :: qs).map Prod.snd) := rfl

theorem normLhsOK_pySum {args : List LinE} (h : varArgsOK args = true) :
    normLhsOK (pySum args) = true := by
  match args with
  | [] => simp [varArgsOK] at h
  | [a] =>
    simp only [varArgsOK, List.all_cons, List.all_nil, Bool.and_true,
      Bool.and_eq_true] at h
    simpa [pySum] using normLhsOK_of_isNumVarImpl h.2
  | a :: b :: rest =>
    simpa [pySum, normLhsOK] using h

/-- The `sum`/`wsum` normalisation stages of the comparison branch turn a
flat left side into a variable or non-empty variable-argument `sum`/`wsum`
and a constant right side. -/
theorem linStages {lhs rhs : LinE} (hl : normInput lhs = true)
    (hr : leafOK rhs = true) :
    ∃ p, linStep1 lhs rhs = some p ∧
      normLhsOK (linFoldMul (linCollect (linMoveRhs p)).1) = true ∧
      ∃ d, (linCollect (linMoveRhs p)).2 = LinE.const d := by
  have stages_wsum : ∀ (ws : List Int) (args : List LinE) (rhs2 : LinE),
      varArgsOK args = true → ws.length = args.length → leafOK rhs2 = true →
      normLhsOK (linFoldMul
        (linCollect (linMoveRhs (LinE.wsum ws args, rhs2))).1) = true ∧
      ∃ d, (linCollect (linMoveRhs (LinE.wsum ws args, rhs2))).2
        = LinE.const d := by
    have collect_wsum : ∀ (ws : List Int) (args : List LinE) (d : Int),
        varArgsOK args = true → ws.length = args.length →
        linCollect (LinE.wsum ws args, LinE.const d)
          = (LinE.wsum ws args, LinE.const (d + -0)) := by
      intro ws args d hv hlen
      rcases Bool.and_eq_true_iff.mp hv with ⟨hne, hall⟩
      have hzf := @zip_filter_notNum_of_vars ws args hall
      have hzn := @zip_filter_num_nil_of_vars ws args hall
      have hwnil : ws.zip args ≠ [] := by
        intro hq
        rcases args with _ | ⟨a, rest⟩
        · simp at hne
        · rcases ws with _ | ⟨w, wrest⟩
          · simp at hlen
          · simp [List.zip] at hq
      have hpw : pyWsum (ws.zip args)
          = LinE.wsum ((ws.zip args).map Prod.fst)
              ((ws.zip args).map Prod.snd) := by
        obtain ⟨q, qs, hq⟩ := List.exists_cons_of_ne_nil hwnil
        rw [hq]
        rfl
      simp only [linCollect, hzf, hzn, List.foldl_nil, hpw]
      rw [List.map_fst_zip ws args (le_of_eq hlen),
        List.map_snd_zip ws args (ge_of_eq hlen)]
      simp [pyAddConst]
    intro ws args rhs2 hv hlen hr2
    rcases Bool.or_eq_true_iff.mp hr2 with hvar | hnum
    · -- variable right side: moved to the left, right side becomes 0
      have hmv : linMoveRhs (LinE.wsum ws args, rhs2)
          = (LinE.wsum (ws ++ [-1]) (args ++ [rhs2]), LinE.const 0) := by
        simp [linMoveRhs, hvar]
      rw [hmv]
      have hv2 : varArgsOK (args ++ [rhs2]) = true := by
        rcases Bool.and_eq_true_iff.mp hv with ⟨hne, hall⟩
        simp_all [varArgsOK, List.all_eq_true]
      have hlen2 : (ws ++ [-1]).length = (args ++ [rhs2]).length := by
        simp [hlen]
      rw [collect_wsum _ _ _ hv2 hlen2]
      refine ⟨?_, 0 + -0, rfl⟩
      simp [linFoldMul, normLhsOK, hv2, hlen2]
    · -- constant right side: untouched by the move stage
      obtain ⟨d, rfl⟩ : ∃ d, rhs2 = LinE.const d := by
        cases rhs2 <;> simp_all [isNum]
      have hmv : linMoveRhs (LinE.wsum ws args, LinE.const d)
          = (LinE.wsum ws args, LinE.const d) := by
        simp [linMoveRhs, isNumVarImpl]
      rw [hmv, collect_wsum _ _ _ hv hlen]
      refine ⟨?_, d + -0, rfl⟩
      simp [linFoldMul, normLhsOK, hv, hlen]
  -- main case split on the left side
  match lhs with
  | LinE.esum args =>
    refine ⟨(LinE.esum args, rhs), rfl, ?_⟩
    have hv : varArgsOK args = true := by simpa [normInput] using hl
    rcases Bool.and_eq_true_iff.mp hv with ⟨hne, hall⟩
    rcases Bool.or_eq_true_iff.mp hr with hvar | hnum
    · have hmv : linMoveRhs (LinE.esum args, rhs)
          = (LinE.wsum ((-1) :: args.map fun _ => (1 : Int)) (rhs :: args),
             LinE.const 0) := by
        simp [linMoveRhs, hvar]
      rw [hmv]
      have hv2 : varArgsOK (rhs :: args) = true := by
        simp_all [varArgsOK, List.all_eq_true]
      have hlen2 : ((-1) :: args.map fun _ => (1 : Int)).length
          = (rhs :: args).length := by simp
      have := stages_wsum ((-1) :: args.map fun _ => (1 : Int)) (rhs :: args)
        (LinE.const 0) hv2 hlen2 (by simp [leafOK, isNum])
      -- the merged pair is already in wsum-with-constant form; the move
      -- stage leaves it unchanged, so reuse the wsum result
      have hmv2 : linMoveRhs
          (LinE.wsum ((-1) :: args.map fun _ => (1 : Int)) (rhs :: args),
           LinE.const 0)
          = (LinE.wsum ((-1) :: args.map fun _ => (1 : Int)) (rhs :: args),
             LinE.const 0) := by
        simp [linMoveRhs, isNumVarImpl]
      rw [hmv2] at this
      exact this
    · obtain ⟨d, rfl⟩ : ∃ d, rhs = LinE.const d := by
        cases rhs <;> simp_all [isNum]
      have hmv : linMoveRhs (LinE.esum args, LinE.const d)
          = (LinE.esum args, LinE.const d) := by
        simp [linMoveRhs, isNumVarImpl]
      rw [hmv]
      have hfn := filter_notNum_of_vars hall
      have hfe := filter_num_nil_of_vars hall
      have hcol : linCollect (LinE.esum args, LinE.const d)
          = (pySum args, LinE.const (d + -0)) := by
        simp [linCollect, hfn, hfe, pyAddConst]
      rw [hcol]
      refine ⟨?_, d + -0, rfl⟩
      have hps := normLhsOK_pySum hv
      have : linFoldMul (pySum args) = pySum args := by
        rcases args with _ | ⟨a, rest⟩
        · simp [varArgsOK] at hv
        · rcases rest with _ | ⟨b, rest2⟩
          · rcases Bool.and_eq_true_iff.mp hv with ⟨_, hall2⟩
            simp only [List.all_cons, List.all_nil, Bool.and_true] at hall2
            cases a <;> simp_all [pySum, linFoldMul, isNumVarImpl]
          · simp [pySum, linFoldMul]
      rw [this]
      exact hps
  | LinE.wsum ws args =>
    refine ⟨(LinE.wsum ws args, rhs), rfl, ?_⟩
    have hv : varArgsOK args = true ∧ ws.length = args.length := by
      have := hl
      simp only [normInput, Bool.and_eq_true, decide_eq_true_eq] at this
      exact this
    exact stages_wsum ws args rhs hv.1 hv.2 hr
  | LinE.sub a b =>
    have hab : a.isNumVarImpl = true ∧ b.isNumVarImpl = true := by
      simpa [normInput] using hl
    refine ⟨(LinE.wsum [1, -1] [a, b], rhs), ?_, ?_⟩
    · have ha' := isNumVarImpl_not_isNum hab.1
      simp [linStep1, pySum, LinE.isNumVarImpl]
    · exact stages_wsum [1, -1] [a, b] rhs
        (by simp [varArgsOK, hab.1, hab.2]) rfl hr
  | LinE.ivar n lb ub =>
    rcases Bool.or_eq_true_iff.mp hr with hvar | hnum
    · refine ⟨(LinE.wsum [1, -1] [LinE.ivar n lb ub, rhs], LinE.const 0),
        ?_, ?_⟩
      · simp [linStep1, ivar_isNumVarImpl, isNumVarImpl_not_isNum hvar, hvar]
      · exact stages_wsum [1, -1] [LinE.ivar n lb ub, rhs] (LinE.const 0)
          (by simp [varArgsOK, ivar_isNumVarImpl, hvar]) rfl
          (by simp [leafOK, isNum])
    · refine ⟨(LinE.ivar n lb ub, rhs), ?_, ?_, ?_⟩
      · simp [linStep1, ivar_isNumVarImpl, hnum]
      · simp [linMoveRhs, linCollect, linFoldMul, normLhsOK, isNumVarImpl]
      · obtain ⟨d, rfl⟩ : ∃ d, rhs = LinE.const d := by
          cases rhs <;> simp_all [isNum]
        exact ⟨d, by simp [linMoveRhs, linCollect]⟩
  | LinE.bvar n =>
    rcases Bool.or_eq_true_iff.mp hr with hvar | hnum
    · refine ⟨(LinE.wsum [1, -1] [LinE.bvar n, rhs], LinE.const 0), ?_, ?_⟩
      · simp [linStep1, bvar_isNumVarImpl, isNumVarImpl_not_isNum hvar, hvar]
      · exact stages_wsum [1, -1] [LinE.bvar n, rhs] (LinE.const 0)
          (by simp [varArgsOK, bvar_isNumVarImpl, hvar]) rfl
          (by simp [leafOK, isNum])
    · refine ⟨(LinE.bvar n, rhs), ?_, ?_, ?_⟩
      · simp [linStep1, bvar_isNumVarImpl, hnum]
      · simp [linMoveRhs, linCollect, linFoldMul, normLhsOK, isNumVarImpl]
      · obtain ⟨d, rfl⟩ : ∃ d, rhs = LinE.const d := by
          cases rhs <;> simp_all [isNum]
        exact ⟨d, by simp [linMoveRhs, linCollect]⟩
  | LinE.negb n =>
    rcases Bool.or_eq_true_iff.mp hr with hvar | hnum
    · refine ⟨(LinE.wsum [1, -1] [LinE.negb n, rhs], LinE.const 0), ?_, ?_⟩
      · simp [linStep1, negb_isNumVarImpl, isNumVarImpl_not_isNum hvar, hvar]
      · exact stages_wsum [1, -1] [LinE.negb n, rhs] (LinE.const 0)
          (by simp [varArgsOK, negb_isNumVarImpl, hvar]) rfl
          (by simp [leafOK, isNum])
    · refine ⟨(LinE.negb n, rhs), ?_, ?_, ?_⟩
      · simp [linStep1, negb_isNumVarImpl, hnum]
      · simp [linMoveRhs, linCollect, linFoldMul, normLhsOK, isNumVarImpl]
      · obtain ⟨d, rfl⟩ : ∃ d, rhs = LinE.const d := by
          cases rhs <;> simp_all [isNum]
        exact ⟨d, by simp [linMoveRhs, linCollect]⟩
  | LinE.const c => simp [normInput, isNumVarImpl] at hl
  | LinE.mul a b => simp [normInput, isNumVarImpl] at hl
  | LinE.element arr idx => simp [normInput, isNumVarImpl] at hl
  | LinE.conj args => simp [normInput, isNumVarImpl] at hl
  | LinE.disj args => simp [normInput, isNumVarImpl] at hl
  | LinE.impl a b => simp [normInput, isNumVarImpl] at hl
  | LinE.cmp op2 a b => simp [normInput, isNumVarImpl] at hl
  | LinE.alldiff args => simp [normInput, isNumVarImpl] at hl

theorem linRun_main_clt {lhs : LinE} (h : normInput lhs = true)
    (fuel : Nat) (r : Bool) (rhs : LinE) (ctr : Nat) :
    linRun (fuel + 1) (LReq.main r Cop.clt lhs rhs) ctr =
      match linStep1 lhs rhs with
      | none => none
      | some pA =>
        let pC := linCollect (linMoveRhs pA)
        let r2 := getOrMakeVar (pyAddConst pC.2 (-1)) ctr
        some ([LinE.cmp Cop.cle (linFoldMul pC.1) r2.1] ++ r2.2.1,
          r2.2.2) := by
  cases lhs <;> first
    | rfl
    | simp [normInput, isNumVarImpl] at h

theorem linRun_main_cgt {lhs : LinE} (h : normInput lhs = true)
    (fuel : Nat) (r : Bool) (rhs : LinE) (ctr : Nat) :
    linRun (fuel + 1) (LReq.main r Cop.cgt lhs rhs) ctr =
      match linStep1 lhs rhs with
      | none => none
      | some pA =>
        let pC := linCollect (linMoveRhs pA)
        let r2 := getOrMakeVar (pyAddConst pC.2 1) ctr
        some ([LinE.cmp Cop.cge (linFoldMul pC.1) r2.1] ++ r2.2.1,
          r2.2.2) := by
  cases lhs <;> first
    | rfl
    | simp [normInput, isNumVarImpl] at h

/-- C5: `linearize_constraint` rewrites every strict comparison over a flat
left side and a variable-or-constant right side into its non-strict
counterpart against the decremented (resp. incremented) constant produced
by the normalisation stages, allocating no auxiliary variable and emitting
no extra constraint — the right side at the rewriting point is always a
constant, and `get_or_make_var` passes constants through; in particular
`x < 5` for `x` with bounds [0,10] linearizes to exactly `x <= 4`. -/
theorem linearize_strict_comparisons :
    (∀ (fuel : Nat) (r : Bool) (lhs rhs : LinE) (ctr : Nat)
        (out : List LinE) (c2 : Nat),
        normInput lhs = true → leafOK rhs = true →
        linCons (fuel + 2) r (LinE.cmp Cop.clt lhs rhs) ctr
          = some (out, c2) →
        ∃ l d, out = [LinE.cmp Cop.cle l (LinE.const (d - 1))] ∧ c2 = ctr) ∧
    (∀ (fuel : Nat) (r : Bool) (lhs rhs : LinE) (ctr : Nat)
        (out : List LinE) (c2 : Nat),
        normInput lhs = true → leafOK rhs = true →
        linCons (fuel + 2) r (LinE.cmp Cop.cgt lhs rhs) ctr
          = some (out, c2) →
        ∃ l d, out = [LinE.cmp Cop.cge l (LinE.const (d + 1))] ∧ c2 = ctr) ∧
    linCons 2 false (LinE.cmp Cop.clt (LinE.ivar 0 0 10) (LinE.const 5)) 0
      = some ([LinE.cmp Cop.cle (LinE.ivar 0 0 10) (LinE.const 4)], 0) := by
  refine ⟨?_, ?_, rfl⟩
  · intro fuel r lhs rhs ctr out c2 hl hr hlin
    obtain ⟨p, hstep, hnorm, d, hrhs⟩ := linStages hl hr
    have hdisp : linCons (fuel + 2) r (LinE.cmp Cop.clt lhs rhs) ctr
        = linRun (fuel + 1) (LReq.main r Cop.clt lhs rhs) ctr := rfl
    rw [hdisp, linRun_main_clt hl, hstep] at hlin
    simp only [hrhs] at hlin
    have hgm : getOrMakeVar (pyAddConst (LinE.const d) (-1)) ctr
        = (LinE.const (d + -1), [], ctr) := rfl
    rw [hgm] at hlin
    simp only [List.append_nil, Option.some.injEq, Prod.mk.injEq] at hlin
    exact ⟨linFoldMul (linCollect (linMoveRhs p)).1, d,
      by rw [← hlin.1]; rfl, hlin.2.symm⟩
  · intro fuel r lhs rhs ctr out c2 hl hr hlin
    obtain ⟨p, hstep, hnorm, d, hrhs⟩ := linStages hl hr
    have hdisp : linCons (fuel + 2) r (LinE.cmp Cop.cgt lhs rhs) ctr
        = linRun (fuel + 1) (LReq.main r Cop.cgt lhs rhs) ctr := rfl
    rw [hdisp, linRun_main_cgt hl, hstep] at hlin
    simp only [hrhs] at hlin
    have hgm : getOrMakeVar (pyAddConst (LinE.const d) 1) ctr
        = (LinE.const (d + 1), [], ctr) := rfl
    rw [hgm] at hlin
    simp only [List.append_nil, Option.some.injEq, Prod.mk.injEq] at hlin
    exact ⟨linFoldMul (linCollect (linMoveRhs p)).1, d,
      by rw [← hlin.1], hlin.2.symm⟩

theorem linearize_strict_comparisons_witness :
    ∃ l d, [LinE.cmp Cop.cle (LinE.ivar 0 0 10) (LinE.const 4)]
        = [LinE.cmp Cop.cle l (LinE.const (d - 1))] ∧ (0 : Nat) = 0 :=
  linearize_strict_comparisons.1 0 false (LinE.ivar 0 0 10) (LinE.const 5) 0
    [LinE.cmp Cop.cle (LinE.ivar 0 0 10) (LinE.const 4)] 0 rfl rfl rfl

/-! Supporting lemmas for the output-shape invariant of
`linearize_constraint`. -/

theorem flatLhsOK_pySum {args : List LinE} (h : varArgsOK args = true) :
    flatLhsOK (pySum args) = true :=
  flatLhsOK_of_normLhsOK (normLhsOK_pySum h)

theorem midLhsOK_pySum {args : List LinE} (h : varArgsOK args = true) :
    midLhsOK (pySum args) = true :=
  midLhsOK_of_normLhsOK (normLhsOK_pySum h)

theorem midLhsOK_pySum_vars {args : List LinE}
    (h : args.all isNumVarImpl = true) : midLhsOK (pySum args) = true := by
  match args with
  | [] => rfl
  | [a] =>
    simp only [pySum]
    exact midLhsOK_of_var (by simpa using h)
  | a :: b :: rest =>
    simp only [pySum, midLhsOK]
    rw [List.all_eq_true] at h ⊢
    intro x hx
    simp [leafOK, h x hx]

theorem varArgsOK_range_map {n : Nat} (hn : 0 < n) (f : Nat → Nat) :
    varArgsOK ((List.range n).map fun k => LinE.bvar (f k)) = true := by
  simp [varArgsOK, List.all_eq_true, List.isEmpty_iff, isNumVarImpl]
  intro h
  omega

theorem linPairs_snd_vars {l : LinE} (h : normLhsOK l = true) :
    ∀ q ∈ linPairs l, (q.2).isNumVarImpl = true := by
  intro q hq
  cases l with
  | esum args =>
    simp only [linPairs, List.mem_map] at hq
    obtain ⟨a, ha, rfl⟩ := hq
    simp only [normLhsOK, varArgsOK, Bool.and_eq_true, List.all_eq_true] at h
    exact h.2 a ha
  | wsum ws args =>
    simp only [linPairs] at hq
    simp only [normLhsOK, varArgsOK, Bool.and_eq_true, List.all_eq_true] at h
    exact h.1.2 q.2 (List.of_mem_zip hq).2
  | ivar n lb ub => simp only [linPairs, List.mem_singleton] at hq; subst hq; rfl
  | bvar n => simp only [linPairs, List.mem_singleton] at hq; subst hq; rfl
  | negb n => simp only [linPairs, List.mem_singleton] at hq; subst hq; rfl
  | const c => simp [normLhsOK, isNumVarImpl] at h
  | sub a b => simp [normLhsOK, isNumVarImpl] at h
  | mul a b => simp [normLhsOK, isNumVarImpl] at h
  | element a b => simp [normLhsOK, isNumVarImpl] at h
  | conj a => simp [normLhsOK, isNumVarImpl] at h
  | disj a => simp [normLhsOK, isNumVarImpl] at h
  | impl a b => simp [normLhsOK, isNumVarImpl] at h
  | cmp o a b => simp [normLhsOK, isNumVarImpl] at h
  | alldiff a => simp [normLhsOK, isNumVarImpl] at h

theorem isNum_exists_const {e : LinE} (h : e.isNum = true) :
    ∃ d, e = LinE.const d := by
  cases e <;> simp_all [isNum]

theorem varArgsOK_of_bools {args : List LinE} (hne : args.isEmpty = false)
    (hall : args.all isBoolVarImpl = true) : varArgsOK args = true := by
  simp only [varArgsOK, hne, Bool.not_false, Bool.true_and, List.all_eq_true]
  rw [List.all_eq_true] at hall
  exact fun a ha => isBoolVarImpl_isNumVarImpl (hall a ha)

theorem flatTop_impl_parts {cond csq : LinE}
    (h : flatTop (LinE.impl cond csq) = true) :
    cond.isBoolVarImpl = true ∧
      (csq.isBoolVarImpl = true ∨ flatTop csq = true) := by
  simp only [flatTop, Bool.and_eq_true, Bool.or_eq_true] at h
  refine ⟨h.1, ?_⟩
  rcases h.2 with hb | hrest
  · exact Or.inl hb
  · right
    cases csq <;> simp_all [flatTop]

theorem all_map_impl {cond : LinE} (hc : cond.isBoolVarImpl = true)
    {l : List LinE} (hl : l.all midOK = true) :
    (l.map fun x => LinE.impl cond x).all midOK = true := by
  rw [List.all_eq_true] at hl ⊢
  intro a ha
  rw [List.mem_map] at ha
  obtain ⟨x, hx, rfl⟩ := ha
  simp only [midOK, Bool.and_eq_true]
  exact ⟨hc, hl x hx⟩

theorem flatLhsOK_pyWsum_pairs {l : LinE} (h : normLhsOK l = true)
    (w : Int) (z : Nat) :
    flatLhsOK (pyWsum (linPairs l ++ [(w, LinE.bvar z)])) = true := by
  have hne : linPairs l ++ [(w, LinE.bvar z)] ≠ [] := by simp
  obtain ⟨q, qs, hq⟩ := List.exists_cons_of_ne_nil hne
  rw [hq, pyWsum_cons, ← hq]
  simp only [flatLhsOK, varArgsOK, Bool.and_eq_true, decide_eq_true_eq]
  refine ⟨⟨?_, ?_⟩, by simp⟩
  · simp [List.isEmpty_iff, hq]
  · rw [List.all_eq_true]
    intro a ha
    rw [List.mem_map] at ha
    obtain ⟨p, hp, rfl⟩ := ha
    rcases List.mem_append.mp hp with hp1 | hp2
    · exact linPairs_snd_vars h p hp1
    · rw [List.mem_singleton] at hp2
      subst hp2
      rfl

theorem flatLhsOK_of_var {e : LinE} (h : e.isNumVarImpl = true) :
    flatLhsOK e = true := by
  cases e <;> simp_all [isNumVarImpl, flatLhsOK]

theorem rangeMap_isEmpty_false {α : Type} (f : Nat → α) {m : Nat}
    (hm : 0 < m) : ((List.range m).map f).isEmpty = false := by
  rw [Bool.eq_false_iff]
  intro hx
  rw [List.isEmpty_iff, List.map_eq_nil_iff, List.range_eq_nil] at hx
  omega

/-- The `alldifferent` rewriting emits only well-shaped linear
comparisons: the one-hot row/column sums compare variable `sum`s to
constants, and each value-link row compares a `wsum` over fresh Boolean
variables to the (possibly negated-view) argument. -/
theorem linAllDiff_midOK {args : List LinE} {ctr : Nat} {out : List LinE}
    {c2 : Nat}
    (h : args.all isNumVarImpl = true)
    (hne : args.isEmpty = false)
    (hrun : linAllDiff args ctr = some (out, c2)) : out.all midOK = true := by
  have hany : (args.any fun a => !a.isNumVarImpl) = false := by
    rw [Bool.eq_false_iff]
    intro hx
    rw [List.any_eq_true] at hx
    obtain ⟨a, ha, hxa⟩ := hx
    rw [List.all_eq_true] at h
    simp [h a ha] at hxa
  unfold linAllDiff at hrun
  rw [hne, hany] at hrun
  simp only [Bool.or_self, Bool.false_eq_true, if_false] at hrun
  simp only [Option.some.injEq, Prod.mk.injEq] at hrun
  rw [← hrun.1]
  rw [List.all_append, List.all_append]
  refine Bool.and_eq_true_iff.mpr ⟨Bool.and_eq_true_iff.mpr ⟨?_, ?_⟩, ?_⟩
  · rw [List.all_eq_true]
    intro x hx
    rw [List.mem_map] at hx
    obtain ⟨i, _, rfl⟩ := hx
    simp only [midOK, Bool.and_eq_true]
    refine ⟨midLhsOK_pySum_vars ?_, by simp [rhsOK, isNum]⟩
    rw [List.all_eq_true]
    intro y hy
    rw [List.mem_map] at hy
    obtain ⟨k, _, rfl⟩ := hy
    rfl
  · rw [List.all_eq_true]
    intro x hx
    rw [List.mem_map] at hx
    obtain ⟨k, _, rfl⟩ := hx
    simp only [midOK, Bool.and_eq_true]
    refine ⟨midLhsOK_pySum_vars ?_, by simp [rhsOK, isNum]⟩
    rw [List.all_eq_true]
    intro y hy
    rw [List.mem_map] at hy
    obtain ⟨i, _, rfl⟩ := hy
    rfl
  · rw [List.all_eq_true]
    intro x hx
    rw [List.mem_map] at hx
    obtain ⟨p, hp, rfl⟩ := hx
    simp only [midOK, Bool.and_eq_true]
    constructor
    · simp only [midLhsOK]
      rw [List.all_eq_true]
      intro y hy
      rw [List.mem_map] at hy
      obtain ⟨k, _, rfl⟩ := hy
      rfl
    · have hmem := (List.of_mem_zip hp).2
      have hv := (List.all_eq_true.mp h) p.2 hmem
      cases hb : p.2.isNegb with
      | false => simp [rhsOK, hv, hb]
      | true =>
        rw [Bool.or_eq_true]
        right
        rw [Bool.and_eq_true]
        refine ⟨rfl, ?_⟩
        simp only [negbFree]
        rw [negbFreeList_eq_all, List.all_eq_true]
        intro y hy
        rw [List.mem_map] at hy
        obtain ⟨k, _, rfl⟩ := hy
        rfl

theorem linRun_main_cne {lhs : LinE} (h : normInput lhs = true)
    (fuel : Nat) (r : Bool) (rhs : LinE) (ctr : Nat) :
    linRun (fuel + 1) (LReq.main r Cop.cne lhs rhs) ctr =
      match linStep1 lhs rhs with
      | none => none
      | some pA =>
        linRun fuel
          (LReq.netail r (linFoldMul (linCollect (linMoveRhs pA)).1)
            (linCollect (linMoveRhs pA)).2) ctr := by
  cases lhs <;> first
    | rfl
    | simp [normInput, isNumVarImpl] at h

theorem linRun_main_plain {lhs : LinE} (h : normInput lhs = true)
    (fuel : Nat) (r : Bool) (op : Cop) (rhs : LinE) (ctr : Nat)
    (hop : op = Cop.ceq ∨ op = Cop.cle ∨ op = Cop.cge) :
    linRun (fuel + 1) (LReq.main r op lhs rhs) ctr =
      match linStep1 lhs rhs with
      | none => none
      | some pA =>
        some ([LinE.cmp op (linFoldMul (linCollect (linMoveRhs pA)).1)
          (linCollect (linMoveRhs pA)).2], ctr) := by
  rcases hop with rfl | rfl | rfl <;>
    (cases lhs <;> first
      | rfl
      | simp [normInput, isNumVarImpl] at h)

/-- The flat-normal-form precondition per recursion entry point. -/
def reqOK : LReq → Bool
  | LReq.one _ e => flatTop e
  | LReq.main _ _ lhs rhs => flatLhsOK lhs && leafOK rhs
  | LReq.netail _ lhsD rhsC => normLhsOK lhsD && rhsC.isNum
  | LReq.list _ es => es.all flatTop

theorem main_good_midOK {lhs rhs : LinE} {fuel : Nat} {r : Bool} {op : Cop}
    {ctr : Nat} {out : List LinE} {c2 : Nat}
    (ih : ∀ (req : LReq) (ctr2 : Nat) (out2 : List LinE) (cc : Nat),
      reqOK req = true → linRun fuel req ctr2 = some (out2, cc) →
      out2.all midOK = true)
    (hni : normInput lhs = true) (hleaf : leafOK rhs = true)
    (hrun : linRun (fuel + 1) (LReq.main r op lhs rhs) ctr = some (out, c2)) :
    out.all midOK = true := by
  obtain ⟨p, hstep, hnorm, d, hrhs⟩ := linStages hni hleaf
  have hmid := midLhsOK_of_normLhsOK hnorm
  cases op with
  | ceq =>
    rw [linRun_main_plain hni fuel r Cop.ceq rhs ctr (Or.inl rfl), hstep]
      at hrun
    simp only [Option.some.injEq, Prod.mk.injEq] at hrun
    rw [← hrun.1]
    simp [midOK, hmid, hrhs, rhsOK, isNum]
  | cle =>
    rw [linRun_main_plain hni fuel r Cop.cle rhs ctr (Or.inr (Or.inl rfl)),
      hstep] at hrun
    simp only [Option.some.injEq, Prod.mk.injEq] at hrun
    rw [← hrun.1]
    simp [midOK, hmid, hrhs, rhsOK, isNum]
  | cge =>
    rw [linRun_main_plain hni fuel r Cop.cge rhs ctr (Or.inr (Or.inr rfl)),
      hstep] at hrun
    simp only [Option.some.injEq, Prod.mk.injEq] at hrun
    rw [← hrun.1]
    simp [midOK, hmid, hrhs, rhsOK, isNum]
  | clt =>
    rw [linRun_main_clt hni fuel r rhs ctr, hstep] at hrun
    simp only [hrhs] at hrun
    have hgm : getOrMakeVar (pyAddConst (LinE.const d) (-1)) ctr
        = (LinE.const (d + -1), [], ctr) := rfl
    rw [hgm] at hrun
    simp only [List.append_nil, Option.some.injEq, Prod.mk.injEq] at hrun
    rw [← hrun.1]
    simp [midOK, hmid, rhsOK, isNum]
  | cgt =>
    rw [linRun_main_cgt hni fuel r rhs ctr, hstep] at hrun
    simp only [hrhs] at hrun
    have hgm : getOrMakeVar (pyAddConst (LinE.const d) 1) ctr
        = (LinE.const (d + 1), [], ctr) := rfl
    rw [hgm] at hrun
    simp only [List.append_nil, Option.some.injEq, Prod.mk.injEq] at hrun
    rw [← hrun.1]
    simp [midOK, hmid, rhsOK, isNum]
  | cne =>
    rw [linRun_main_cne hni fuel r rhs ctr, hstep] at hrun
    exact ih _ _ _ _ (by simp [reqOK, hnorm, hrhs, isNum]) hrun

theorem linRun_midOK :
    ∀ (fuel : Nat) (req : LReq) (ctr : Nat) (out : List LinE) (c2 : Nat),
      reqOK req = true → linRun fuel req ctr = some (out, c2) →
      out.all midOK = true := by
  intro fuel
  induction fuel with
  | zero =>
    intro req ctr out c2 _ hrun
    simp [linRun] at hrun
  | succ fuel ih =>
    intro req ctr out c2 hok hrun
    match req with
    | LReq.one reified e =>
      match e with
      | LinE.negb n =>
        simp only [linRun, Option.some.injEq, Prod.mk.injEq] at hrun
        rw [← hrun.1]
        simp [midOK, midLhsOK, rhsOK, pySum, isNumVarImpl, isNum]
      | LinE.bvar n =>
        simp only [linRun, Option.some.injEq, Prod.mk.injEq] at hrun
        rw [← hrun.1]
        simp [midOK, midLhsOK, rhsOK, pySum, isNumVarImpl, isNum]
      | LinE.conj args =>
        simp only [linRun, Option.some.injEq, Prod.mk.injEq] at hrun
        rw [← hrun.1]
        simp only [reqOK, flatTop, Bool.and_eq_true, Bool.not_eq_true'] at hok
        have hv := varArgsOK_of_bools hok.1 hok.2
        simp [midOK, midLhsOK_pySum hv, rhsOK, isNum]
      | LinE.disj args =>
        simp only [linRun, Option.some.injEq, Prod.mk.injEq] at hrun
        rw [← hrun.1]
        simp only [reqOK, flatTop, Bool.and_eq_true, Bool.not_eq_true'] at hok
        have hv := varArgsOK_of_bools hok.1 hok.2
        simp [midOK, midLhsOK_pySum hv, rhsOK, isNum]
      | LinE.impl cond csq =>
        obtain ⟨hcond, hcsq⟩ := flatTop_impl_parts hok
        simp only [linRun, hcond, if_true] at hrun
        by_cases hcb : csq.isBoolVarImpl = true
        · rw [if_pos hcb] at hrun
          refine ih _ _ _ _ ?_ hrun
          simp [reqOK, flatTop, bnot_isBoolVarImpl hcond, hcb]
        · rw [if_neg hcb] at hrun
          have hcsq2 : flatTop csq = true := by
            rcases hcsq with hb | ht
            · exact absurd hb hcb
            · exact ht
          match hsub : linRun fuel (LReq.one true csq) ctr with
          | none => rw [hsub] at hrun; exact absurd hrun (by simp)
          | some (linSub, c1) =>
            rw [hsub] at hrun
            simp only [Option.some.injEq, Prod.mk.injEq] at hrun
            rw [← hrun.1]
            exact all_map_impl hcond
              (ih (LReq.one true csq) ctr linSub c1 hcsq2 hsub)
      | LinE.cmp op lhs rhs =>
        simp only [linRun] at hrun
        exact ih _ _ _ _ (by simpa [reqOK, flatTop] using hok) hrun
      | LinE.alldiff args =>
        simp only [linRun] at hrun
        simp only [reqOK, flatTop, Bool.and_eq_true, Bool.not_eq_true'] at hok
        exact linAllDiff_midOK hok.2 hok.1 hrun
      | LinE.const c => simp [linRun] at hrun
      | LinE.ivar n lb ub => simp [reqOK, flatTop] at hok
      | LinE.esum xs => simp [reqOK, flatTop] at hok
      | LinE.wsum ws xs => simp [reqOK, flatTop] at hok
      | LinE.sub x y => simp [reqOK, flatTop] at hok
      | LinE.mul x y => simp [reqOK, flatTop] at hok
      | LinE.element arr idx => simp [reqOK, flatTop] at hok
    | LReq.main reified op lhs rhs =>
      simp only [reqOK, Bool.and_eq_true] at hok
      obtain ⟨hfl, hleaf⟩ := hok
      match lhs with
      | LinE.const c => simp [linRun] at hrun
      | LinE.element arr idx =>
        simp only [flatLhsOK, Bool.and_eq_true, Bool.not_eq_true'] at hfl
        have hn : 0 < arr.length := by
          rcases arr with _ | ⟨a, rest⟩
          · simp at hfl
          · simp
        simp only [linRun] at hrun
        refine ih _ _ _ _ ?_ hrun
        show (_ : List LinE).all flatTop = true
        rw [List.all_eq_true]
        intro x hx
        rcases List.mem_append.mp hx with hx1 | hx2
        · simp only [List.mem_cons, List.not_mem_nil, or_false] at hx1
          rcases hx1 with rfl | rfl
          · simp only [flatTop, Bool.and_eq_true]
            exact ⟨flatLhsOK_pySum (varArgsOK_range_map hn _), rfl⟩
          · simp only [flatTop, Bool.and_eq_true]
            refine ⟨?_, hfl.2⟩
            simp only [flatLhsOK, Bool.and_eq_true, decide_eq_true_eq]
            exact ⟨varArgsOK_range_map hn _, by simp⟩
        · rw [List.mem_map] at hx2
          obtain ⟨p, hp, rfl⟩ := hx2
          have hp1 := (List.of_mem_zip hp).1
          have hp2 := (List.of_mem_zip hp).2
          rw [List.mem_map] at hp1
          obtain ⟨k, _, hk⟩ := hp1
          simp only [flatTop, Bool.and_eq_true]
          constructor
          · rw [← hk]; rfl
          · rw [Bool.or_eq_true, Bool.and_eq_true]
            exact Or.inr
              ⟨flatLhsOK_of_var ((List.all_eq_true.mp hfl.1.2) p.2 hp2),
               hleaf⟩
      | LinE.ivar n lb ub =>
        exact main_good_midOK ih
          (normInput_of_flatLhsOK hfl
            (by intro a2 b2 hcon; exact LinE.noConfusion hcon)) hleaf hrun
      | LinE.bvar n =>
        exact main_good_midOK ih
          (normInput_of_flatLhsOK hfl
            (by intro a2 b2 hcon; exact LinE.noConfusion hcon)) hleaf hrun
      | LinE.negb n =>
        exact main_good_midOK ih
          (normInput_of_flatLhsOK hfl
            (by intro a2 b2 hcon; exact LinE.noConfusion hcon)) hleaf hrun
      | LinE.esum xs =>
        exact main_good_midOK ih
          (normInput_of_flatLhsOK hfl
            (by intro a2 b2 hcon; exact LinE.noConfusion hcon)) hleaf hrun
      | LinE.wsum ws xs =>
        exact main_good_midOK ih
          (normInput_of_flatLhsOK hfl
            (by intro a2 b2 hcon; exact LinE.noConfusion hcon)) hleaf hrun
      | LinE.sub x y =>
        exact main_good_midOK ih
          (normInput_of_flatLhsOK hfl
            (by intro a2 b2 hcon; exact LinE.noConfusion hcon)) hleaf hrun
      | LinE.mul x y => simp [flatLhsOK, isNumVarImpl] at hfl
      | LinE.conj xs => simp [flatLhsOK, isNumVarImpl] at hfl
      | LinE.disj xs => simp [flatLhsOK, isNumVarImpl] at hfl
      | LinE.impl x y => simp [flatLhsOK, isNumVarImpl] at hfl
      | LinE.cmp o x y => simp [flatLhsOK, isNumVarImpl] at hfl
      | LinE.alldiff xs => simp [flatLhsOK, isNumVarImpl] at hfl
    | LReq.netail reified lhsD rhsC =>
      simp only [reqOK, Bool.and_eq_true] at hok
      obtain ⟨hnorm, hnum⟩ := hok
      obtain ⟨d, rfl⟩ := isNum_exists_const hnum
      simp only [linRun] at hrun
      rw [if_neg (by simp [isBoolVarImpl])] at hrun
      split at hrun
      · refine ih _ _ _ _ ?_ hrun
        simp only [reqOK, List.all_cons, List.all_nil, Bool.and_true,
          flatTop, Bool.and_eq_true]
        exact ⟨⟨flatLhsOK_pyWsum_pairs hnorm _ _, rfl⟩,
          flatLhsOK_pyWsum_pairs hnorm _ _, rfl⟩
      · refine ih _ _ _ _ ?_ hrun
        simp only [reqOK, List.all_cons, List.all_nil, Bool.and_true,
          flatTop, Bool.and_eq_true]
        have hcw : (lhsD.flatLhsOK && (LinE.const d).leafOK) = true := by
          simp [flatLhsOK_of_normLhsOK hnorm, leafOK, isNum]
        refine ⟨⟨rfl, ?_⟩, rfl, ?_⟩ <;>
          (rw [Bool.or_eq_true]; exact Or.inr hcw)
    | LReq.list reified es =>
      match es with
      | [] =>
        simp only [linRun, Option.some.injEq, Prod.mk.injEq] at hrun
        rw [← hrun.1]
        rfl
      | e :: rest =>
        simp only [reqOK, List.all_cons, Bool.and_eq_true] at hok
        simp only [linRun] at hrun
        match h1 : linRun fuel (LReq.one reified e) ctr with
        | none => simp only [h1] at hrun; exact Option.noConfusion hrun
        | some (o1, c1) =>
          simp only [h1] at hrun
          match h2 : linRun fuel (LReq.list reified rest) c1 with
          | none => simp only [h2] at hrun; exact Option.noConfusion hrun
          | some (o2, cc2) =>
            simp only [h2, Option.some.injEq, Prod.mk.injEq] at hrun
            rw [← hrun.1, List.all_append]
            exact Bool.and_eq_true_iff.mpr
              ⟨ih _ _ _ _ (by simpa [reqOK] using hok.1) h1,
               ih _ _ _ _ (by simpa [reqOK] using hok.2) h2⟩

/-! `only_positive_bv` establishes the negated-view-free shape `postOK` on
every constraint of the `midOK` shape emitted by `linearize_constraint`. -/

theorem negbFree_of_rhsOK {e : LinE} (h : rhsOK e = true) :
    negbFree e = true := by
  cases e <;> simp_all [rhsOK, isNum, isNumVarImpl, isNegb, negbFree]

theorem negbFree_of_leafOK_not_negb {e : LinE} (h : leafOK e = true)
    (hn : e.isNegb = false) : negbFree e = true := by
  cases e <;> simp_all [leafOK, isNumVarImpl, isNum, isNegb, negbFree]

theorem negbFree_pyAddConst {e : LinE} (h : negbFree e = true) (k : Int) :
    negbFree (pyAddConst e k) = true := by
  cases e <;> simp only [pyAddConst] <;>
    first
      | simp [negbFree]
      | (split_ifs with hk
         · exact h
         · simp_all [negbFree, negbFreeList])

theorem opbFlip_snd_negbFree {q : Int × LinE} (h : leafOK q.2 = true) :
    negbFree (opbFlip q).2 = true := by
  obtain ⟨w, a⟩ := q
  cases a <;> simp_all [opbFlip, leafOK, isNumVarImpl, isNum, negbFree]

theorem pyAddConst_zero_isNegb {e : LinE} (h : e.isNegb = true) :
    (pyAddConst e 0).isNegb = true := by
  cases e <;> simp_all [isNegb, pyAddConst]

theorem opb_cmp_wsum_eq {op : Cop} {ws : List Int} {args : List LinE}
    {rhs : LinE} {ctr : Nat} (hne : args.isEmpty = false) :
    opb (LinE.cmp op (LinE.wsum ws args) rhs) ctr
      = some ([LinE.cmp op
          (LinE.wsum (((ws.zip args).map opbFlip).map Prod.fst)
            (((ws.zip args).map opbFlip).map Prod.snd))
          (pyAddConst rhs
            (-(((ws.zip args).filter fun p => p.2.isNegb).foldl
                (fun acc p => acc + p.1) 0)))], ctr) := by
  cases args with
  | nil => simp at hne
  | cons a as => rfl

theorem opb_cmp_esum_pos_eq {op : Cop} {args : List LinE} {rhs : LinE}
    {ctr : Nat} (hneg : args.any LinE.isNegb = true) :
    opb (LinE.cmp op (LinE.esum args) rhs) ctr
      = opb (LinE.cmp op (LinE.wsum (args.map fun _ => (1 : Int)) args) rhs)
          ctr := by
  simp only [opb]
  rw [if_pos hneg]

theorem opb_cmp_esum_neg_eq {op : Cop} {args : List LinE} {rhs : LinE}
    {ctr : Nat} (hneg : args.any LinE.isNegb = false) :
    opb (LinE.cmp op (LinE.esum args) rhs) ctr
      = some ([LinE.cmp op (LinE.esum args) rhs], ctr) := by
  simp only [opb]
  rw [if_neg (by simp [hneg])]

theorem opb_cmp_wsum_postOK {op : Cop} {ws : List Int} {args : List LinE}
    {rhs : LinE} {ctr : Nat} {out : List LinE} {c2 : Nat}
    (hne : args.isEmpty = false) (hleaf : ∀ a ∈ args, leafOK a = true)
    (hr : negbFree rhs = true ∨
      (rhs.isNegb = true ∧ ∀ a ∈ args, a.isNegb = false))
    (hrun : opb (LinE.cmp op (LinE.wsum ws args) rhs) ctr = some (out, c2)) :
    out.all postOK = true := by
  rw [opb_cmp_wsum_eq hne] at hrun
  simp only [Option.some.injEq, Prod.mk.injEq] at hrun
  obtain ⟨rfl, rfl⟩ := hrun
  rw [List.all_cons, List.all_nil, Bool.and_true]
  simp only [postOK]
  rw [Bool.and_eq_true]
  constructor
  · simp only [negbFree]
    rw [negbFreeList_eq_all, List.all_eq_true]
    intro x hx
    rw [List.mem_map] at hx
    obtain ⟨q2, hq2, rfl⟩ := hx
    rw [List.mem_map] at hq2
    obtain ⟨q, hq, rfl⟩ := hq2
    obtain ⟨w0, a0⟩ := q
    exact opbFlip_snd_negbFree (hleaf a0 (List.of_mem_zip hq).2)
  · rcases hr with hr | ⟨hrn, hnoneg⟩
    · rw [Bool.or_eq_true]
      exact Or.inl (negbFree_pyAddConst hr _)
    · have hfilt : ((ws.zip args).filter fun p => p.2.isNegb) = [] := by
        rw [List.filter_eq_nil_iff]
        intro q hq
        obtain ⟨w0, a0⟩ := q
        simp [hnoneg a0 (List.of_mem_zip hq).2]
      rw [hfilt]
      simp only [List.foldl_nil, neg_zero]
      rw [Bool.or_eq_true]
      exact Or.inr (pyAddConst_zero_isNegb hrn)

theorem postRhs_of_hr {lhs rhs : LinE}
    (hr : (rhsOK rhs || (rhs.isNegb && negbFree lhs)) = true) :
    (negbFree rhs || rhs.isNegb) = true := by
  rw [Bool.or_eq_true] at hr
  rcases hr with h | h
  · simp [negbFree_of_rhsOK h]
  · rw [Bool.and_eq_true] at h
    simp [h.1]

theorem opb_cmp_postOK {op : Cop} {lhs rhs : LinE} {ctr : Nat}
    {out : List LinE} {c2 : Nat}
    (hl : midLhsOK lhs = true)
    (hr : (rhsOK rhs || (rhs.isNegb && negbFree lhs)) = true)
    (hrun : opb (LinE.cmp op lhs rhs) ctr = some (out, c2)) :
    out.all postOK = true := by
  cases lhs with
  | ivar n lb ub =>
    have heq : opb (LinE.cmp op (LinE.ivar n lb ub) rhs) ctr
        = some ([LinE.cmp op (LinE.ivar n lb ub) rhs], ctr) := rfl
    rw [heq] at hrun
    simp only [Option.some.injEq, Prod.mk.injEq] at hrun
    obtain ⟨rfl, rfl⟩ := hrun
    simp [postOK, negbFree, postRhs_of_hr hr]
  | bvar n =>
    have heq : opb (LinE.cmp op (LinE.bvar n) rhs) ctr
        = some ([LinE.cmp op (LinE.bvar n) rhs], ctr) := rfl
    rw [heq] at hrun
    simp only [Option.some.injEq, Prod.mk.injEq] at hrun
    obtain ⟨rfl, rfl⟩ := hrun
    simp [postOK, negbFree, postRhs_of_hr hr]
  | const c =>
    have heq : opb (LinE.cmp op (LinE.const c) rhs) ctr
        = some ([LinE.cmp op (LinE.const c) rhs], ctr) := rfl
    rw [heq] at hrun
    simp only [Option.some.injEq, Prod.mk.injEq] at hrun
    obtain ⟨rfl, rfl⟩ := hrun
    simp [postOK, negbFree, postRhs_of_hr hr]
  | negb n =>
    have hro : rhsOK rhs = true := by simpa [negbFree] using hr
    have hrf := negbFree_of_rhsOK hro
    have heq : opb (LinE.cmp op (LinE.negb n) rhs) ctr
        = some ([LinE.cmp op (LinE.wsum [-1] [LinE.bvar n])
            (pyAddConst (pyAddConst rhs (-1)) 0)], ctr) := rfl
    rw [heq] at hrun
    simp only [Option.some.injEq, Prod.mk.injEq] at hrun
    obtain ⟨rfl, rfl⟩ := hrun
    rw [List.all_cons, List.all_nil, Bool.and_true]
    simp only [postOK]
    rw [Bool.and_eq_true]
    refine ⟨by simp [negbFree, negbFreeList], ?_⟩
    rw [Bool.or_eq_true]
    exact Or.inl (negbFree_pyAddConst (negbFree_pyAddConst hrf (-1)) 0)
  | esum args =>
    simp only [midLhsOK, List.all_eq_true] at hl
    have hrd : negbFree rhs = true ∨
        (rhs.isNegb = true ∧ ∀ a ∈ args, a.isNegb = false) := by
      rw [Bool.or_eq_true] at hr
      rcases hr with h | h
      · exact Or.inl (negbFree_of_rhsOK h)
      · rw [Bool.and_eq_true] at h
        obtain ⟨h1, h2⟩ := h
        refine Or.inr ⟨h1, ?_⟩
        intro a ha
        have h2l : negbFreeList args = true := by simpa [negbFree] using h2
        rw [negbFreeList_eq_all, List.all_eq_true] at h2l
        exact negbFree_not_isNegb (h2l a ha)
    cases hneg : args.any LinE.isNegb with
    | true =>
      have hne : args.isEmpty = false := by
        cases args with
        | nil => simp at hneg
        | cons a as => rfl
      rw [opb_cmp_esum_pos_eq hneg] at hrun
      exact opb_cmp_wsum_postOK hne hl hrd hrun
    | false =>
      rw [opb_cmp_esum_neg_eq hneg] at hrun
      simp only [Option.some.injEq, Prod.mk.injEq] at hrun
      obtain ⟨rfl, rfl⟩ := hrun
      have hnone : ∀ a ∈ args, a.isNegb = false := by
        intro a ha
        cases hb : a.isNegb with
        | false => rfl
        | true =>
          have hx : args.any LinE.isNegb = true :=
            List.any_eq_true.mpr ⟨a, ha, hb⟩
          rw [hx] at hneg
          exact Bool.noConfusion hneg
      rw [List.all_cons, List.all_nil, Bool.and_true]
      simp only [postOK]
      rw [Bool.and_eq_true]
      constructor
      · simp only [negbFree]
        rw [negbFreeList_eq_all, List.all_eq_true]
        intro a ha
        exact negbFree_of_leafOK_not_negb (hl a ha) (hnone a ha)
      · rcases hrd with hp | ⟨hp, _⟩
        · simp [hp]
        · simp [hp]
  | wsum ws args =>
    simp only [midLhsOK, List.all_eq_true] at hl
    have hrd : negbFree rhs = true ∨
        (rhs.isNegb = true ∧ ∀ a ∈ args, a.isNegb = false) := by
      rw [Bool.or_eq_true] at hr
      rcases hr with h | h
      · exact Or.inl (negbFree_of_rhsOK h)
      · rw [Bool.and_eq_true] at h
        obtain ⟨h1, h2⟩ := h
        refine Or.inr ⟨h1, ?_⟩
        intro a ha
        have h2l : negbFreeList args = true := by simpa [negbFree] using h2
        rw [negbFreeList_eq_all, List.all_eq_true] at h2l
        exact negbFree_not_isNegb (h2l a ha)
    cases args with
    | nil =>
      rw [show opb (LinE.cmp op (LinE.wsum ws []) rhs) ctr = none
        from rfl] at hrun
      exact Option.noConfusion hrun
    | cons a rest =>
      exact opb_cmp_wsum_postOK (by simp) hl hrd hrun
  | sub a b => simp [midLhsOK, isNumVarImpl, isNum] at hl
  | mul a b => simp [midLhsOK, isNumVarImpl, isNum] at hl
  | element arr i => simp [midLhsOK, isNumVarImpl, isNum] at hl
  | conj args2 => simp [midLhsOK, isNumVarImpl, isNum] at hl
  | disj args2 => simp [midLhsOK, isNumVarImpl, isNum] at hl
  | impl a b => simp [midLhsOK, isNumVarImpl, isNum] at hl
  | cmp op2 a b => simp [midLhsOK, isNumVarImpl, isNum] at hl
  | alldiff args2 => simp [midLhsOK, isNumVarImpl, isNum] at hl

theorem all_map_impl_postOK {cond : LinE} (hc : cond.isBoolVarImpl = true)
    {l : List LinE} (hl : l.all postOK = true) :
    (l.map fun x => LinE.impl cond x).all postOK = true := by
  rw [List.all_eq_true] at hl ⊢
  intro a ha
  rw [List.mem_map] at ha
  obtain ⟨x, hx, rfl⟩ := ha
  simp only [postOK, Bool.and_eq_true]
  exact ⟨hc, hl x hx⟩

theorem opb_postOK : ∀ (e : LinE) (ctr : Nat) (out : List LinE) (c2 : Nat),
    midOK e = true → opb e ctr = some (out, c2) → out.all postOK = true
  | LinE.cmp op lhs rhs, ctr, out, c2, hm, hrun => by
    simp only [midOK, Bool.and_eq_true] at hm
    exact opb_cmp_postOK hm.1 hm.2 hrun
  | LinE.impl cond csq, ctr, out, c2, hm, hrun => by
    simp only [midOK, Bool.and_eq_true] at hm
    simp only [opb, hm.1, if_true] at hrun
    cases hsub : opb csq ctr with
    | none =>
      simp only [hsub] at hrun
      exact Option.noConfusion hrun
    | some p =>
      obtain ⟨subs, c1⟩ := p
      simp only [hsub, Option.some.injEq, Prod.mk.injEq] at hrun
      obtain ⟨rfl, rfl⟩ := hrun
      exact all_map_impl_postOK hm.1 (opb_postOK csq ctr subs c1 hm.2 hsub)
  | LinE.ivar n lb ub, _, _, _, hm, _ => by simp [midOK] at hm
  | LinE.bvar n, _, _, _, hm, _ => by simp [midOK] at hm
  | LinE.negb n, _, _, _, hm, _ => by simp [midOK] at hm
  | LinE.const c, _, _, _, hm, _ => by simp [midOK] at hm
  | LinE.esum args, _, _, _, hm, _ => by simp [midOK] at hm
  | LinE.wsum ws args, _, _, _, hm, _ => by simp [midOK] at hm
  | LinE.sub a b, _, _, _, hm, _ => by simp [midOK] at hm
  | LinE.mul a b, _, _, _, hm, _ => by simp [midOK] at hm
  | LinE.element arr i, _, _, _, hm, _ => by simp [midOK] at hm
  | LinE.conj args, _, _, _, hm, _ => by simp [midOK] at hm
  | LinE.disj args, _, _, _, hm, _ => by simp [midOK] at hm
  | LinE.alldiff args, _, _, _, hm, _ => by simp [midOK] at hm

theorem opbList_postOK :
    ∀ (es : List LinE) (ctr : Nat) (out : List LinE) (c2 : Nat),
      es.all midOK = true → opbList es ctr = some (out, c2) →
      out.all postOK = true
  | [], ctr, out, c2, _, hrun => by
    simp only [opbList, Option.some.injEq, Prod.mk.injEq] at hrun
    obtain ⟨rfl, rfl⟩ := hrun
    rfl
  | e :: rest, ctr, out, c2, hm, hrun => by
    rw [List.all_cons, Bool.and_eq_true] at hm
    simp only [opbList] at hrun
    cases h1 : opb e ctr with
    | none =>
      simp only [h1] at hrun
      exact Option.noConfusion hrun
    | some p =>
      obtain ⟨o1, c1⟩ := p
      simp only [h1] at hrun
      cases h2 : opbList rest c1 with
      | none =>
        simp only [h2] at hrun
        exact Option.noConfusion hrun
      | some q =>
        obtain ⟨o2, cc⟩ := q
        simp only [h2, Option.some.injEq, Prod.mk.injEq] at hrun
        obtain ⟨rfl, rfl⟩ := hrun
        rw [List.all_append]
        exact Bool.and_eq_true_iff.mpr
          ⟨opb_postOK e ctr o1 c1 hm.1 h1,
           opbList_postOK rest c1 o2 cc hm.2 h2⟩


/-- C3: the claim as stated is false in two independent ways.
(i) `only_positive_bv` recurses under an implication whenever the
antecedent is a `_BoolVarImpl`, which includes `NegBoolView`, and keeps
that antecedent unchanged: the fully flat implication `~bv0 -> (iv1 <= 5)`
passes through `linearize_constraint` and `only_positive_bv` untouched,
its output still containing the negated view.
(ii) the `alldifferent` rewriting links each one-hot row to its argument
by a comparison whose right side is the argument itself — for
`alldifferent(~bv5, bv6)` a negated view — its constraints are returned
without re-linearization, and `only_positive_bv` rewrites only comparison
left sides, so the negated view survives as a comparison side. -/
theorem negbool_antecedent_survives :
    (∃ e : LinE,
      flatTop e = true ∧
      linCons 9 false e 0 = some ([e], 0) ∧
      opbList [e] 0 = some ([e], 0) ∧
      negbFree e = false) ∧
    (∃ out : List LinE,
      flatTop (LinE.alldiff [LinE.negb 5, LinE.bvar 6]) = true ∧
      linCons 9 false (LinE.alldiff [LinE.negb 5, LinE.bvar 6]) 0
        = some (out, 4) ∧
      opbList out 4 = some (out, 4) ∧
      (out.any fun x =>
        match x with
        | LinE.cmp _ _ r => r.isNegb
        | _ => false) = true) :=
  ⟨⟨LinE.impl (LinE.negb 0)
      (LinE.cmp Cop.cle (LinE.ivar 1 0 10) (LinE.const 5)),
    rfl, rfl, rfl, rfl⟩,
   ⟨[LinE.cmp Cop.ceq (LinE.esum [LinE.bvar 0, LinE.bvar 1]) (LinE.const 1),
     LinE.cmp Cop.ceq (LinE.esum [LinE.bvar 2, LinE.bvar 3]) (LinE.const 1),
     LinE.cmp Cop.cle (LinE.esum [LinE.bvar 0, LinE.bvar 2]) (LinE.const 1),
     LinE.cmp Cop.cle (LinE.esum [LinE.bvar 1, LinE.bvar 3]) (LinE.const 1),
     LinE.cmp Cop.ceq (LinE.wsum [0, 1] [LinE.bvar 0, LinE.bvar 1])
       (LinE.negb 5),
     LinE.cmp Cop.ceq (LinE.wsum [0, 1] [LinE.bvar 2, LinE.bvar 3])
       (LinE.bvar 6)],
    rfl, rfl, rfl, rfl⟩⟩

/-- C3 (amended): for every constraint in flat normal form, after
`linearize_constraint` followed by `only_positive_bv` no negated Boolean
view appears as a comparison left side or inside a `sum`/`wsum` argument
list; a negated view may remain only as the Boolean-literal antecedent of
an implication or as the entire right side of a comparison (the
`alldifferent` value-link rows) — the shape `postOK`. -/
theorem linearize_only_positive_bv_negbfree :
    ∀ (fuel : Nat) (e : LinE) (ctr : Nat) (mid : List LinE) (c1 : Nat)
      (out : List LinE) (c2 : Nat),
      flatTop e = true →
      linCons fuel false e ctr = some (mid, c1) →
      opbList mid c1 = some (out, c2) →
      out.all postOK = true := by
  intro fuel e ctr mid c1 out c2 hf h1 h2
  exact opbList_postOK mid c1 out c2
    (linRun_midOK fuel (LReq.one false e) ctr mid c1 hf h1) h2

theorem linearize_only_positive_bv_negbfree_witness :
    ([LinE.cmp Cop.ceq (LinE.esum [LinE.bvar 0, LinE.bvar 1]) (LinE.const 1),
      LinE.cmp Cop.ceq (LinE.esum [LinE.bvar 2, LinE.bvar 3]) (LinE.const 1),
      LinE.cmp Cop.cle (LinE.esum [LinE.bvar 0, LinE.bvar 2]) (LinE.const 1),
      LinE.cmp Cop.cle (LinE.esum [LinE.bvar 1, LinE.bvar 3]) (LinE.const 1),
      LinE.cmp Cop.ceq (LinE.wsum [0, 1] [LinE.bvar 0, LinE.bvar 1])
        (LinE.negb 5),
      LinE.cmp Cop.ceq (LinE.wsum [0, 1] [LinE.bvar 2, LinE.bvar 3])
        (LinE.bvar 6)].all postOK) = true :=
  linearize_only_positive_bv_negbfree 9
    (LinE.alldiff [LinE.negb 5, LinE.bvar 6]) 0
    [LinE.cmp Cop.ceq (LinE.esum [LinE.bvar 0, LinE.bvar 1]) (LinE.const 1),
     LinE.cmp Cop.ceq (LinE.esum [LinE.bvar 2, LinE.bvar 3]) (LinE.const 1),
     LinE.cmp Cop.cle (LinE.esum [LinE.bvar 0, LinE.bvar 2]) (LinE.const 1),
     LinE.cmp Cop.cle (LinE.esum [LinE.bvar 1, LinE.bvar 3]) (LinE.const 1),
     LinE.cmp Cop.ceq (LinE.wsum [0, 1] [LinE.bvar 0, LinE.bvar 1])
       (LinE.negb 5),
     LinE.cmp Cop.ceq (LinE.wsum [0, 1] [LinE.bvar 2, LinE.bvar 3])
       (LinE.bvar 6)] 4
    [LinE.cmp Cop.ceq (LinE.esum [LinE.bvar 0, LinE.bvar 1]) (LinE.const 1),
     LinE.cmp Cop.ceq (LinE.esum [LinE.bvar 2, LinE.bvar 3]) (LinE.const 1),
     LinE.cmp Cop.cle (LinE.esum [LinE.bvar 0, LinE.bvar 2]) (LinE.const 1),
     LinE.cmp Cop.cle (LinE.esum [LinE.bvar 1, LinE.bvar 3]) (LinE.const 1),
     LinE.cmp Cop.ceq (LinE.wsum [0, 1] [LinE.bvar 0, LinE.bvar 1])
       (LinE.negb 5),
     LinE.cmp Cop.ceq (LinE.wsum [0, 1] [LinE.bvar 2, LinE.bvar 3])
       (LinE.bvar 6)] 4
    rfl rfl rfl

/-! ## The tree-recursive decomposition engine (decompose_global.py)

Expression language: the expression classes of the sources — core
`Operator`s and `Comparison`s, decision variables, constants, nested
lists, and the Boolean global constraints of globalconstraints.py
(`alldifferent`, `allequal`, `increasing`, `decreasing` stand in for the
library; each carries its source decomposition).  Numeric global
functions live in globalfunctions.py, which is not among the sources;
every class under src/ is Boolean (`GlobalConstraint.is_bool` returns
`True`) and none defines `decompose_comparison`, so on this language the
duck-typing probes `hasattr(lhs, "decompose_comparison")` of
`decompose_in_tree` are constantly false and the numeric-global branch is
unreachable. -/

inductive OpN where
  | opAnd | opOr | opImp | opSum | opSub | opMul
deriving DecidableEq

inductive CmpN where
  | ceq | cne | clt | cle | cgt | cge
deriving DecidableEq

inductive GN where
  | alldifferent | allequal | increasing | decreasing
deriving DecidableEq

inductive DE where
  | bvar : Nat → DE
  | ivar : Nat → DE
  | iconst : Int → DE
  | bconst : Bool → DE
  | oper : OpN → List DE → DE
  | dcmp : CmpN → DE → DE → DE
  | glob : GN → List DE → DE
  | lst : List DE → DE

/-- `all_pairs(args)` (utils): the ordered pairs `args[i], args[j]` with
`i < j`. -/
def allPairs : List DE → List (DE × DE)
  | [] => []
  | a :: rest => (rest.map fun b => (a, b)) ++ allPairs rest

/-- The `decompose()` methods of globalconstraints.py: `AllDifferent`
posts pairwise disequalities over `all_pairs`, `AllEqual` chains
equalities over `zip(args[:-1], args[1:])`, `Increasing`/`Decreasing`
chain `<=`/`>=` over consecutive arguments; all four return an empty
defining list. -/
def globDecomp : GN → List DE → List DE × List DE
  | GN.alldifferent, args =>
    ((allPairs args).map fun p => DE.dcmp CmpN.cne p.1 p.2, [])
  | GN.allequal, args =>
    ((args.zip args.tail).map fun p => DE.dcmp CmpN.ceq p.1 p.2, [])
  | GN.increasing, args =>
    ((args.zip args.tail).map fun p => DE.dcmp CmpN.cle p.1 p.2, [])
  | GN.decreasing, args =>
    ((args.zip args.tail).map fun p => DE.dcmp CmpN.cge p.1 p.2, [])

/-- Modelled from the spec: `python_builtins.all` (not among the sources)
conjoins a list of Boolean expressions: empty list to true, a single
constraint to itself, otherwise an n-ary `and`. -/
def cpmAll : List DE → DE
  | [] => DE.bconst true
  | [e] => e
  | es => DE.oper OpN.opAnd es

/-- Modelled from the spec: `toplevel_list` (normalize.py is not among the
sources) flattens nested lists and splits top-level `and` operators,
keeping every other constraint in order.  Fuel-structural; `none` on fuel
exhaustion. -/
def tlRun : Nat → List DE → Option (List DE)
  | 0, _ => none
  | _ + 1, [] => some []
  | fuel + 1, e :: rest =>
    match e with
    | DE.lst es =>
      match tlRun fuel es, tlRun fuel rest with
      | some a, some b => some (a ++ b)
      | _, _ => none
    | DE.oper OpN.opAnd args =>
      match tlRun fuel args, tlRun fuel rest with
      | some a, some b => some (a ++ b)
      | _, _ => none
    | e =>
      match tlRun fuel rest with
      | some b => some (e :: b)
      | none => none

/-- The self-calls of `decompose_in_tree`: the per-expression body of the
loop (`one`), the loop over a list of expressions (`run`) — both carrying
the `nested` flag and returning the rebuilt expressions together with the
constraints accumulated into the by-reference `_toplevel` — and the
outermost `nested=False` entry (`main`) that flushes the accumulator. -/
inductive DReq where
  | one : Bool → DE → DReq
  | run : Bool → List DE → DReq
  | main : List DE → DReq

/-- `decompose_in_tree` (decompose_global.py), fuel-structural.

* A nested list asserts `nested is True` (`none` otherwise), recurses and
  is re-appended as one list element.
* An `Operator` recurses into its arguments and is rebuilt through the
  constructor.
* A global constraint first recurses into its arguments, then tests
  `(nested and name in supported_nested) or (not nested and name in
  supported)`: kept if supported, otherwise its constraining
  decomposition is recursed at the *current* `nested` flag and conjoined
  with `all(...)`, the defining constraints going to `_toplevel`.
* A `Comparison` recurses into each side as a nested singleton list and
  takes element `[0]` (no class of the sources has
  `decompose_comparison`, so neither special branch fires), then rebuilds
  through `eval_comparison`.
* Constants and variables pass through.
* The outermost call runs the loop at `nested=False`; if the accumulator
  is empty it returns `toplevel_list(newlist)`, otherwise
  `toplevel_list(newlist)` followed by a fresh full pass over the
  accumulated constraints. -/
def ditRun (s sn : GN → Bool) : Nat → DReq → Option (List DE × List DE)
  | 0, _ => none
  | fuel + 1, DReq.one nested e =>
    match e with
    | DE.lst es =>
      if nested then
        match ditRun s sn fuel (DReq.run true es) with
        | none => none
        | some (o, t) => some ([DE.lst o], t)
      else none
    | DE.oper name args =>
      match ditRun s sn fuel (DReq.run true args) with
      | none => none
      | some (o, t) => some ([DE.oper name o], t)
    | DE.glob g args =>
      match ditRun s sn fuel (DReq.run true args) with
      | none => none
      | some (args2, t1) =>
        if (nested && sn g) || (!nested && s g) then
          some ([DE.glob g args2], t1)
        else
          let d := globDecomp g args2
          match ditRun s sn fuel (DReq.run nested d.1) with
          | none => none
          | some (dec2, t2) => some ([cpmAll dec2], t1 ++ d.2 ++ t2)
    | DE.dcmp op lhs rhs =>
      match ditRun s sn fuel (DReq.one true lhs) with
      | none => none
      | some (lo, t1) =>
        match ditRun s sn fuel (DReq.one true rhs) with
        | none => none
        | some (ro, t2) =>
          match lo, ro with
          | [l2], [r2] => some ([DE.dcmp op l2 r2], t1 ++ t2)
          | _, _ => none
    | e => some ([e], [])
  | fuel + 1, DReq.run nested es =>
    match es with
    | [] => some ([], [])
    | e :: rest =>
      match ditRun s sn fuel (DReq.one nested e) with
      | none => none
      | some (o1, t1) =>
        match ditRun s sn fuel (DReq.run nested rest) with
        | none => none
        | some (o2, t2) => some (o1 ++ o2, t1 ++ t2)
  | fuel + 1, DReq.main es =>
    match ditRun s sn fuel (DReq.run false es) with
    | none => none
    | some (o, tops) =>
      if tops.isEmpty then
        match tlRun fuel o with
        | none => none
        | some r => some (r, [])
      else
        match tlRun fuel o, ditRun s sn fuel (DReq.main tops) with
        | some r, some (r2, t2) => some (r ++ r2, t2)
        | _, _ => none

/-- `decompose_in_tree(lst_of_expr, supported, supported_nested)` — the
public entry point (fresh accumulator, `nested=False`). -/
def dit (s sn : GN → Bool) (fuel : Nat) (es : List DE) : Option (List DE) :=
  match ditRun s sn fuel (DReq.main es) with
  | none => none
  | some (o, _) => some o

mutual

/-- Fully decomposed in nested context: every global constraint in scope
is in `supported_nested`. -/
def nfNested (s sn : GN → Bool) : DE → Bool
  | DE.glob g args => sn g && nfArgs s sn args
  | DE.oper _ args => nfArgs s sn args
  | DE.dcmp _ l r => nfNested s sn l && nfNested s sn r
  | DE.lst es => nfArgs s sn es
  | _ => true

def nfArgs (s sn : GN → Bool) : List DE → Bool
  | [] => true
  | e :: rest => nfNested s sn e && nfArgs s sn rest

end

/-- Fully decomposed as a top-level constraint: a top-level global is in
`supported`, everything below it is fully decomposed in nested context,
and the constraint is in the shape `toplevel_list` leaves untouched (no
bare list, no top-level `and`). -/
def nfTop (s sn : GN → Bool) : DE → Bool
  | DE.glob g args => s g && nfArgs s sn args
  | DE.oper OpN.opAnd _ => false
  | DE.oper _ args => nfArgs s sn args
  | DE.dcmp _ l r => nfNested s sn l && nfNested s sn r
  | DE.lst _ => false
  | _ => true

mutual

/-- Fuel needed by `ditRun` on one fully decomposed expression. -/
def dOne : DE → Nat
  | DE.lst es => 1 + dRun es
  | DE.oper _ args => 1 + dRun args
  | DE.glob _ args => 1 + dRun args
  | DE.dcmp _ l r => 1 + max (dOne l) (dOne r)
  | _ => 1

def dRun : List DE → Nat
  | [] => 1
  | e :: rest => 1 + max (dOne e) (dRun rest)

end

/-- Fuel needed by the outermost `decompose_in_tree` call on a fully
decomposed list. -/
def dMain (es : List DE) : Nat := 1 + max (dRun es) (es.length + 1)

/-- The constraints `toplevel_list` keeps untouched: not a bare list, not
a top-level `and`. -/
def tlPlain : DE → Bool
  | DE.lst _ => false
  | DE.oper OpN.opAnd _ => false
  | _ => true

theorem tlPlain_of_nfTop {s sn : GN → Bool} {e : DE}
    (h : nfTop s sn e = true) : tlPlain e = true := by
  cases e with
  | oper name args => cases name <;> simp_all [nfTop, tlPlain]
  | lst es => simp [nfTop] at h
  | bvar n => rfl
  | ivar n => rfl
  | iconst c => rfl
  | bconst b => rfl
  | dcmp op a b => rfl
  | glob g args => rfl

theorem tlRun_id : ∀ (fuel : Nat) (es : List DE),
    es.all tlPlain = true → es.length + 1 ≤ fuel →
    tlRun fuel es = some es := by
  intro fuel
  induction fuel with
  | zero => intro es _ h; omega
  | succ fuel ih =>
    intro es hp hlen
    match es with
    | [] => rfl
    | e :: rest =>
      rw [List.all_cons, Bool.and_eq_true] at hp
      obtain ⟨hp1, hp2⟩ := hp
      have hlen' : rest.length + 1 ≤ fuel := by
        simp [List.length_cons] at hlen; omega
      have hr : tlRun fuel rest = some rest := ih rest hp2 hlen'
      cases e with
      | lst es2 => simp [tlPlain] at hp1
      | oper name args =>
        cases name with
        | opAnd => simp [tlPlain] at hp1
        | opOr => simp [tlRun, hr]
        | opImp => simp [tlRun, hr]
        | opSum => simp [tlRun, hr]
        | opSub => simp [tlRun, hr]
        | opMul => simp [tlRun, hr]
      | bvar n => simp [tlRun, hr]
      | ivar n => simp [tlRun, hr]
      | iconst c => simp [tlRun, hr]
      | bconst b => simp [tlRun, hr]
      | dcmp op a b => simp [tlRun, hr]
      | glob g args => simp [tlRun, hr]

/-- Shape, fuel requirement and expected (identity) output of each
`decompose_in_tree` self-call on fully decomposed input. -/
def dReqOK (s sn : GN → Bool) : DReq → Bool
  | DReq.one true e => nfNested s sn e
  | DReq.one false e => nfTop s sn e
  | DReq.run true es => nfArgs s sn es
  | DReq.run false es => es.all (nfTop s sn)
  | DReq.main es => es.all (nfTop s sn)

def dReqFuel : DReq → Nat
  | DReq.one _ e => dOne e
  | DReq.run _ es => dRun es
  | DReq.main es => dMain es

def dReqOut : DReq → List DE
  | DReq.one _ e => [e]
  | DReq.run _ es => es
  | DReq.main es => es

/-- On fully decomposed input every `decompose_in_tree` self-call returns
its input unchanged and adds nothing to the `_toplevel` accumulator. -/
theorem ditRun_id (s sn : GN → Bool) :
    ∀ (fuel : Nat) (req : DReq),
      dReqOK s sn req = true → dReqFuel req ≤ fuel →
      ditRun s sn fuel req = some (dReqOut req, []) := by
  intro fuel
  induction fuel with
  | zero =>
    intro req hok hfuel
    exfalso
    cases req with
    | one nested e => cases e <;> simp [dReqFuel, dOne] at hfuel
    | run nested es => cases es <;> simp [dReqFuel, dRun] at hfuel
    | main es => simp [dReqFuel, dMain] at hfuel
  | succ fuel ih =>
    intro req hok hfuel
    match req with
    | DReq.one nested e =>
      match e with
      | DE.bvar n => cases nested <;> rfl
      | DE.ivar n => cases nested <;> rfl
      | DE.iconst c => cases nested <;> rfl
      | DE.bconst b => cases nested <;> rfl
      | DE.lst es =>
        cases nested with
        | false => simp [dReqOK, nfTop] at hok
        | true =>
          have hargs : nfArgs s sn es = true := by
            simpa [dReqOK, nfNested] using hok
          have hfu : dRun es ≤ fuel := by
            simp [dReqFuel, dOne] at hfuel; omega
          have hr := ih (DReq.run true es) (by simpa [dReqOK] using hargs)
            (by simpa [dReqFuel] using hfu)
          simp [ditRun, hr, dReqOut]
      | DE.oper name args =>
        have hargs : nfArgs s sn args = true := by
          cases nested
          · cases name <;> simp_all [dReqOK, nfTop]
          · simpa [dReqOK, nfNested] using hok
        have hfu : dRun args ≤ fuel := by
          simp [dReqFuel, dOne] at hfuel; omega
        have hr := ih (DReq.run true args) (by simpa [dReqOK] using hargs)
          (by simpa [dReqFuel] using hfu)
        simp [ditRun, hr, dReqOut]
      | DE.glob g args =>
        have hga : nfArgs s sn args = true ∧
            ((nested && sn g) || (!nested && s g)) = true := by
          cases nested <;> simp_all [dReqOK, nfTop, nfNested]
        have hfu : dRun args ≤ fuel := by
          simp [dReqFuel, dOne] at hfuel; omega
        have hr := ih (DReq.run true args) (by simpa [dReqOK] using hga.1)
          (by simpa [dReqFuel] using hfu)
        simp [ditRun, hr, hga.2, dReqOut]
      | DE.dcmp op l r =>
        have hlr : nfNested s sn l = true ∧ nfNested s sn r = true := by
          cases nested <;> simp_all [dReqOK, nfTop, nfNested]
        have hm : max (dOne l) (dOne r) ≤ fuel := by
          simp [dReqFuel, dOne] at hfuel; omega
        have h1 := ih (DReq.one true l) (by simpa [dReqOK] using hlr.1)
          (by simpa [dReqFuel] using le_trans (Nat.le_max_left _ _) hm)
        have h2 := ih (DReq.one true r) (by simpa [dReqOK] using hlr.2)
          (by simpa [dReqFuel] using le_trans (Nat.le_max_right _ _) hm)
        simp [ditRun, h1, h2, dReqOut]
    | DReq.run nested es =>
      match es with
      | [] => cases nested <;> rfl
      | e :: rest =>
        have h12 : dReqOK s sn (DReq.one nested e) = true ∧
            dReqOK s sn (DReq.run nested rest) = true := by
          cases nested <;> simp_all [dReqOK, nfArgs]
        have hm : max (dOne e) (dRun rest) ≤ fuel := by
          simp [dReqFuel, dRun] at hfuel; omega
        have h1 := ih (DReq.one nested e) h12.1
          (by simpa [dReqFuel] using le_trans (Nat.le_max_left _ _) hm)
        have h2 := ih (DReq.run nested rest) h12.2
          (by simpa [dReqFuel] using le_trans (Nat.le_max_right _ _) hm)
        simp [ditRun, h1, h2, dReqOut]
    | DReq.main es =>
      have hnf : es.all (nfTop s sn) = true := by
        simpa [dReqOK] using hok
      have hm : max (dRun es) (es.length + 1) ≤ fuel := by
        simp [dReqFuel, dMain] at hfuel; omega
      have h1 := ih (DReq.run false es) (by simpa [dReqOK] using hnf)
        (by simpa [dReqFuel] using le_trans (Nat.le_max_left _ _) hm)
      have hpl : es.all tlPlain = true := by
        rw [List.all_eq_true] at hnf ⊢
        exact fun a ha => tlPlain_of_nfTop (hnf a ha)
      have htl : tlRun fuel es = some es :=
        tlRun_id fuel es hpl (le_trans (Nat.le_max_right _ _) hm)
      simp [ditRun, h1, htl, dReqOut]

/-- C2: for every support set (toplevel and nested) and every list of
constraints that is fully decomposed against it — every global constraint
in its context's support set, constraints in the shape `toplevel_list`
leaves alone — `decompose_in_tree` returns the list unchanged, with an
empty `_toplevel` accumulator (so running the decomposition engine twice
equals running it once). -/
theorem decompose_in_tree_idempotent :
    ∀ (s sn : GN → Bool) (l : List DE) (fuel : Nat),
      l.all (nfTop s sn) = true → dMain l ≤ fuel →
      dit s sn fuel l = some l := by
  intro s sn l fuel hnf hfuel
  have h := ditRun_id s sn fuel (DReq.main l)
    (by simpa [dReqOK] using hnf) (by simpa [dReqFuel] using hfuel)
  simp [dit, h, dReqOut]

theorem decompose_in_tree_idempotent_witness :
    dit (fun g => match g with | GN.alldifferent => true | _ => false)
        (fun _ => false) 20
        [DE.glob GN.alldifferent [DE.ivar 0, DE.ivar 1],
         DE.dcmp CmpN.cle (DE.ivar 0) (DE.iconst 5),
         DE.oper OpN.opOr [DE.bvar 0, DE.bvar 1]]
      = some [DE.glob GN.alldifferent [DE.ivar 0, DE.ivar 1],
              DE.dcmp CmpN.cle (DE.ivar 0) (DE.iconst 5),
              DE.oper OpN.opOr [DE.bvar 0, DE.bvar 1]] :=
  decompose_in_tree_idempotent
    (fun g => match g with | GN.alldifferent => true | _ => false)
    (fun _ => false)
    [DE.glob GN.alldifferent [DE.ivar 0, DE.ivar 1],
     DE.dcmp CmpN.cle (DE.ivar 0) (DE.iconst 5),
     DE.oper OpN.opOr [DE.bvar 0, DE.bvar 1]] 20 (by decide) (by decide)

end CPMpy
